import Mathlib

/-! # Infiniversal: the Spanish syllable counter (`Syllables` module of `app.js`)

A shallow embedding of the four functions of the `Syllables` module
(`countWord`, `countText`, `verseName`, `countWords`) and of the string
primitives they call.

A JavaScript string is a sequence of UTF-16 code units; `word[i]`,
`word.length`, `VOWELS.includes(c)` and a regular expression without the `u`
flag all work on code units, so a string is modelled as a list of code units.
-/

namespace Infiniversal

/-- A JavaScript string: its UTF-16 code units. -/
abbrev JSString := List Nat

/-- The code units of one Unicode scalar value (a surrogate pair above U+FFFF). -/
def encodeUnits (n : Nat) : List Nat :=
  if n < 0x10000 then [n]
  else [0xD800 + (n - 0x10000) / 0x400, 0xDC00 + (n - 0x10000) % 0x400]

/-- The code units of a list of characters. -/
def unitsOf : List Char → JSString
  | [] => []
  | c :: cs => encodeUnits c.toNat ++ unitsOf cs

/-- The JavaScript string denoted by a string literal of the source. -/
def utf16 (s : String) : JSString := unitsOf s.toList

/-! ## Platform string operations

`String.prototype.toLowerCase` and `String.prototype.normalize` belong to the
JavaScript engine, not to the repository. `countWord` takes them as a
parameter; `Platform.Latin1` states the part of their Unicode behaviour that
the concrete evaluations below rely on.
-/

/-- The two engine operations `countWord` calls. -/
structure Platform where
  /-- The method `String.prototype.toLowerCase`. -/
  toLowerCase : JSString → JSString
  /-- The method `String.prototype.normalize` called with the form NFC. -/
  normalize : JSString → JSString

/-- Unicode simple lowercase mapping on U+0000..U+00FF: `A`-`Z` and
`À`-`Þ` (except `×`) move up by 32, every other code unit is unchanged. -/
def toLowerLatin1 (c : Nat) : Nat :=
  if (0x41 ≤ c ∧ c ≤ 0x5A) ∨ (0xC0 ≤ c ∧ c ≤ 0xDE ∧ c ≠ 0xD7) then c + 32 else c

/-- On a string of code units below U+0100 the engine lowercases unit by unit
with the Latin-1 mapping, and NFC leaves such a string (and its lowercase
form) unchanged: every code point below U+0300 is NFC-inert. -/
def Platform.Latin1 (P : Platform) : Prop :=
  ∀ w : JSString, (∀ c ∈ w, c < 0x100) →
    P.toLowerCase w = w.map toLowerLatin1 ∧ P.normalize w = w

/-- A platform that lowercases with the Latin-1 mapping and never recomposes:
it agrees with a JavaScript engine on every string below U+0100. -/
def Platform.latin1 : Platform where
  toLowerCase := fun w => w.map toLowerLatin1
  normalize := fun w => w

/-- Lowercase of a string over U+0000..U+00FF and U+0130: `İ` (U+0130,
capital I with dot above) becomes `i` followed by U+0307, as the Unicode
special casing table prescribes; every other unit follows the Latin-1
mapping. -/
def lowerDotted : JSString → JSString
  | [] => []
  | c :: rest => (if c = 0x130 then [0x69, 0x307] else [toLowerLatin1 c]) ++ lowerDotted rest

/-- A platform that also lowercases `İ`: it agrees with a JavaScript engine
on every string over U+0000..U+00FF and U+0130 (no unit of the lowercase
form composes with its neighbour, so NFC leaves it unchanged). -/
def Platform.dotted : Platform where
  toLowerCase := lowerDotted
  normalize := fun w => w

/-! ## The `Syllables` module -/

/-- `const VOWELS = 'aeiouáéíóúüAEIOUÁÉÍÓÚÜ'`. -/
def VOWELS : JSString := utf16 "aeiouáéíóúüAEIOUÁÉÍÓÚÜ"

/-- `const DIPHTHONGS = new Set([...])`: thirty two-unit strings. -/
def DIPHTHONGS : List JSString :=
  [ utf16 "ai", utf16 "au", utf16 "ei", utf16 "eu", utf16 "oi", utf16 "ou",
    utf16 "ia", utf16 "ie", utf16 "io", utf16 "iu", utf16 "ua", utf16 "ue",
    utf16 "ui", utf16 "uo",
    utf16 "ái", utf16 "áu", utf16 "éi", utf16 "éu", utf16 "ói", utf16 "íu",
    utf16 "úi", utf16 "iá", utf16 "ié", utf16 "ió", utf16 "iú", utf16 "uá",
    utf16 "ué", utf16 "uó", utf16 "üe", utf16 "üi" ]

/-- `const isVowel = c => VOWELS.includes(c)`, for a one-unit string `c`. -/
def isVowel (c : Nat) : Bool := VOWELS.contains c

/-- `DIPHTHONGS.has(a + b)` for two one-unit strings `a` and `b`. -/
def isDiphthong (a b : Nat) : Bool := DIPHTHONGS.contains [a, b]

/-- The `while (i < word.length)` loop of `countWord`, from index `i` with
`count` nuclei counted so far. -/
def countLoop (word : JSString) (i count : Nat) : Nat :=
  if h : i < word.length then
    if isVowel word[i] then
      if h1 : i + 1 < word.length then
        if isVowel word[i + 1] && isDiphthong word[i] word[i + 1] then
          countLoop word (i + 1 + 1) (count + 1)
        else countLoop word (i + 1) (count + 1)
      else countLoop word (i + 1) (count + 1)
    else countLoop word (i + 1) count
  else count
termination_by word.length - i

/-- The function `countWord(word)`. -/
def countWord (P : Platform) (word : JSString) : Nat :=
  if word = [] then 0
  else max 1 (countLoop (P.normalize (P.toLowerCase word)) 0 0)

/-- The loop of `countWord` read off the remaining suffix `word.slice(i)`:
the number of nuclei the loop adds from there on. -/
def scan : JSString → Nat
  | [] => 0
  | [c] => if isVowel c then 1 else 0
  | c :: d :: rest =>
    if isVowel c then
      if isVowel d && isDiphthong c d then 1 + scan rest else 1 + scan (d :: rest)
    else scan (d :: rest)

/-- The class `\s` of a regular expression, which is also the set
`String.prototype.trim` strips: WhiteSpace and LineTerminator code units. -/
def isWhiteSpace (c : Nat) : Bool :=
  [0x09, 0x0A, 0x0B, 0x0C, 0x0D, 0x20, 0xA0, 0x1680, 0x2028, 0x2029, 0x202F,
    0x205F, 0x3000, 0xFEFF].contains c || (0x2000 ≤ c && c ≤ 0x200A)

/-- The method `String.prototype.trim`. -/
def trim (s : JSString) : JSString :=
  ((s.dropWhile isWhiteSpace).reverse.dropWhile isWhiteSpace).reverse

/-- The loop of `s.split(/\s+/)`: `cur` is the piece being read, `inSep`
says that the last unit read belongs to a separator match. A whitespace unit
that starts a match closes the piece; the rest of the run is part of the
same match; the end of the string closes the last piece. -/
def splitGo : Bool → JSString → JSString → List JSString
  | _, cur, [] => [cur]
  | inSep, cur, c :: rest =>
    if isWhiteSpace c then
      if inSep then splitGo true [] rest else cur :: splitGo true [] rest
    else splitGo false (cur ++ [c]) rest

/-- The call `s.split(/\s+/)`. -/
def split (s : JSString) : List JSString := splitGo false [] s

/-- Membership in the character class `[a-záéíóúüñA-ZÁÉÍÓÚÜÑ]`. -/
def isSpanishLetter (c : Nat) : Bool :=
  (0x61 ≤ c && c ≤ 0x7A) || (utf16 "áéíóúüñ").contains c ||
    (0x41 ≤ c && c ≤ 0x5A) || (utf16 "ÁÉÍÓÚÜÑ").contains c

/-- The call `w.replace(/[^a-záéíóúüñA-ZÁÉÍÓÚÜÑ]/g, '')`. -/
def clean (w : JSString) : JSString := w.filter isSpanishLetter

/-- The callback of `reduce` in `countText`. -/
def addWord (P : Platform) (sum : Nat) (w : JSString) : Nat :=
  sum + (if clean w ≠ [] then countWord P (clean w) else 0)

/-- The function `countText(text)`. -/
def countText (P : Platform) (text : JSString) : Nat :=
  if text = [] ∨ trim text = [] then 0
  else (split (trim text)).foldl (addWord P) 0

/-- The object literal `names` of `verseName`. -/
def names : List (Int × String) :=
  [ (1, "Monosílabo"), (2, "Bisílabo"), (3, "Trisílabo"), (4, "Tetrasílabo"),
    (5, "Pentasílabo"), (6, "Hexasílabo"), (7, "Heptasílabo"), (8, "Octosílabo"),
    (9, "Eneasílabo"), (10, "Decasílabo"), (11, "Endecasílabo"),
    (12, "Dodecasílabo"), (13, "Tridecasílabo"), (14, "Alejandrino") ]

/-! ### Numbers

The argument of `verseName` is a JavaScript Number, an IEEE-754 double. An
integer argument reaches the function as the double nearest to it, and the
template literal prints that double with `Number::toString`. Both belong to
the engine; they are modelled here on the integers, following ECMA-262.
-/

/-- A Number that an integer argument can be: a finite double, which then
has an integer value, or an infinity. -/
inductive JSNumber
  | finite (v : Int)
  | infinity (negative : Bool)
deriving DecidableEq

/-- The number of binary digits of `a`, read off by halving at most `fuel`
times. -/
def bitLengthAux : Nat → Nat → Nat
  | 0, _ => 0
  | fuel + 1, a => if a = 0 then 0 else bitLengthAux fuel (a / 2) + 1

/-- The number of binary digits of `a` (0 for 0). -/
def bitLength (a : Nat) : Nat := bitLengthAux a a

/-- The value of the double nearest to the natural number `a`, ties to the
even significand: `a` keeps its 53 leading binary digits. `none` when the
result exceeds the largest finite double, `(2^53 - 1) * 2^971`. -/
def roundNat (a : Nat) : Option Nat :=
  let e := bitLength a - 53
  let q := a / 2 ^ e
  let r := a % 2 ^ e
  let q2 := if 2 * r > 2 ^ e ∨ (2 * r = 2 ^ e ∧ q % 2 = 1) then q + 1 else q
  if e < 971 ∨ (e = 971 ∧ q2 < 2 ^ 53) then some (q2 * 2 ^ e) else none

/-- The Number an integer argument `n` is: the nearest double, or an
infinity beyond the range of the doubles. An integer up to 2^53 in absolute
value is itself. -/
def toNumber (n : Int) : JSNumber :=
  match roundNat n.natAbs with
  | some v => JSNumber.finite (if n < 0 then -(v : Int) else (v : Int))
  | none => JSNumber.infinity (decide (n < 0))

/-- Whether the decimal `s * 10^j` denotes the double of value `x`: it
rounds to `x`. -/
def denotes (x s j : Nat) : Bool := roundNat (s * 10 ^ j) == some x

/-- The digits `s` with which `s * 10^j` denotes `x`, if there are any: of
the two multiples of `10^j` around `x`, the one that denotes `x`; when both
do, the closer one, and the even one on a tie. -/
def pickDigits (x j : Nat) : Option Nat :=
  let lo := x / 10 ^ j
  let hi := lo + 1
  if denotes x lo j then
    if denotes x hi j then
      if x - lo * 10 ^ j < hi * 10 ^ j - x then some lo
      else if hi * 10 ^ j - x < x - lo * 10 ^ j then some hi
      else if lo % 2 = 0 then some lo else some hi
    else some lo
  else if denotes x hi j then some hi else none

/-- The shortest digits that denote `x`: the pair `(s, j)` with the largest
`j` (at most the first argument) such that `s * 10^j` denotes `x`. -/
def shortestDigits : Nat → Nat → Nat × Nat
  | 0, x => (x, 0)
  | j + 1, x =>
    match pickDigits x (j + 1) with
    | some s => (s, j + 1)
    | none => shortestDigits j x

/-- The text of `s * 10^j` as `Number::toString` writes it: the significant
digits of `s` followed by zeros when the number has at most 21 digits,
otherwise the exponent form `d.ddde+n`. -/
def formatDigits (s j : Nat) : String :=
  let ds := Nat.toDigits 10 s
  let sig := (ds.reverse.dropWhile (fun c => c == '0')).reverse
  let n := ds.length + j
  if n ≤ 21 then String.mk (sig ++ List.replicate (n - sig.length) '0')
  else
    match sig with
    | [] => ""
    | [d] => String.mk (d :: "e+".toList ++ Nat.toDigits 10 (n - 1))
    | d :: rest => String.mk (d :: '.' :: rest ++ "e+".toList ++ Nat.toDigits 10 (n - 1))

/-- The shortest digits of the double of value `x`, formatted. -/
def printShortest (x : Nat) : String :=
  formatDigits (shortestDigits ((Nat.toDigits 10 x).length - 1) x).1
    (shortestDigits ((Nat.toDigits 10 x).length - 1) x).2

/-- The operation `Number::toString` on a Number that an integer argument
can be. A double of absolute value up to 2^53 prints its decimal digits; a
larger one prints the shortest digits that denote it. -/
def numberToString : JSNumber → String
  | JSNumber.finite v =>
    if v.natAbs ≤ 2 ^ 53 then toString v
    else (if v < 0 then "-" else "") ++ printShortest v.natAbs
  | JSNumber.infinity negative => if negative then "-Infinity" else "Infinity"

/-- The lookup `names[x]` for a Number `x`: the property whose key is the
text of `x`. -/
def lookupName : JSNumber → Option String
  | JSNumber.finite v => names.lookup v
  | JSNumber.infinity _ => none

/-- The template literal of `verseName` for the integer argument `n`: the
text of the Number `n` is, then `" sílabas"`. -/
def fallbackName (n : Int) : String := numberToString (toNumber n) ++ " sílabas"

/-- The function `verseName(n)` called with the integer `n`: `names[n]`, or
the template literal when the lookup is `undefined` or an empty string. -/
def verseName (n : Int) : String :=
  match lookupName (toNumber n) with
  | some s => if s = "" then fallbackName n else s
  | none => fallbackName n

/-- The function `countWords(text)`. -/
def countWords (text : JSString) : Nat :=
  if text = [] ∨ trim text = [] then 0
  else ((split (trim text)).filter (fun w => decide (w.length > 0))).length

/-- The stanza hints of `PoemStructures` that name a metre together with its
syllable count, each with that count: soneto and cuarteto (the same hint),
terceto, silva (two metres) and décima. -/
def metreHints : List (Int × String) :=
  [ (11, "ABBA · endecasílabos (11 síl.)"),
    (11, "ABA · endecasílabos (11 síl.)"),
    (7, "Heptasílabos (7) y endecasílabos (11) · rima libre"),
    (11, "Heptasílabos (7) y endecasílabos (11) · rima libre"),
    (8, "abbaaccddc · octosílabos (8 síl.)") ]

/-! ## Specification-side definitions -/

/-- The characters of a string with `A`-`Z` lowered. -/
def lowerChars (s : String) : List Char := s.toList.map Char.toLower

/-- Whether `pat` occurs in `s` as a contiguous block. -/
def occursIn (pat s : List Char) : Bool := s.tails.any (fun t => pat.isPrefixOf t)

/-- A hint matches `verseName(n)`: it contains the name in lowercase, in the
plural, followed by the count `n` in brackets. -/
def hintMatches (p : Int × String) : Bool :=
  occursIn (lowerChars (verseName p.1) ++ "s (".toList ++ (toString p.1).toList)
    (lowerChars p.2)


/-- The scan as the specification words it: add 1 when the current unit is a
vowel; then skip the successor when the current unit and its successor are a
member of the diphthong table, otherwise move on by one. -/
def specScan : JSString → Nat
  | [] => 0
  | [c] => if isVowel c then 1 else 0
  | c :: d :: rest =>
    (if isVowel c then 1 else 0) +
      (if isDiphthong c d then specScan rest else specScan (d :: rest))

/-- The eleven lowercase vowels `a e i o u á é í ó ú ü`. -/
def lowerVowels : JSString := utf16 "aeiouáéíóúü"

/-- The letters the specification lists for the cleaning step: `a`-`z`,
`A`-`Z`, `á é í ó ú ü ñ` and their uppercase forms. -/
def spanishLetters : JSString :=
  utf16 "abcdefghijklmnopqrstuvwxyzABCDEFGHIJKLMNOPQRSTUVWXYZáéíóúüñÁÉÍÓÚÜÑ"

/-- What a cleaned token contributes to `countText`. -/
def wordValue (P : Platform) (w : JSString) : Nat :=
  if w ≠ [] then countWord P w else 0

/-- The value of `countWord` on a word of code units below U+0100, for a
platform that satisfies `Platform.Latin1`. -/
def wordScore (w : JSString) : Nat :=
  if w = [] then 0 else max 1 (scan (w.map toLowerLatin1))

/-- A single left-to-right pass over a text: `cur` holds the letters of the
token being read, `v` values a finished token. -/
def textPass (v : JSString → Nat) : JSString → JSString → Nat
  | cur, [] => v cur
  | cur, c :: rest =>
    if isWhiteSpace c then v cur + textPass v [] rest
    else textPass v (if isSpanishLetter c then cur ++ [c] else cur) rest

/-- The number of maximal runs of non-whitespace units: a run starts at a
non-whitespace unit whose predecessor is whitespace or missing (`prevWs`). -/
def runStarts : Bool → JSString → Nat
  | _, [] => 0
  | prevWs, c :: rest =>
    (if prevWs && !isWhiteSpace c then 1 else 0) + runStarts (isWhiteSpace c) rest

/-- The number of maximal runs of non-whitespace units of a text. -/
def numRuns (t : JSString) : Nat := runStarts true t

/-! ## The module object and its callers -/

/-- The four functions declared inside the `Syllables` closure. -/
inductive Operation
  | countWord
  | countText
  | verseName
  | countWords
deriving DecidableEq

/-- Every function declared inside the closure, with its name. -/
def declaredFunctions : List (String × Operation) :=
  [ ("countWord", Operation.countWord), ("countText", Operation.countText),
    ("verseName", Operation.verseName), ("countWords", Operation.countWords) ]

/-- The object the closure returns and `Syllables` is bound to:
`return { countText, verseName, countWords }`. A property that is not
listed is `undefined` on the module object. -/
def Syllables : List (String × Operation) :=
  [ ("countText", Operation.countText), ("verseName", Operation.verseName),
    ("countWords", Operation.countWords) ]

/-- The property named in each `Syllables.<name>(...)` call of `app.js`
(the statistics readout, the metric readout, the selection handler). -/
def externalCalls : List String :=
  [ "countWords", "countText", "countText", "verseName", "countText", "verseName" ]

/-! ## The loop of `countWord`, one iteration at a time -/

/-- One iteration of the `while` loop at index `i`: the index and the count
after the body, or `none` when the loop condition fails. -/
def loopStep (word : JSString) (i count : Nat) : Option (Nat × Nat) :=
  if h : i < word.length then
    if isVowel word[i] then
      if h1 : i + 1 < word.length then
        if isVowel word[i + 1] && isDiphthong word[i] word[i + 1] then
          some (i + 1 + 1, count + 1)
        else some (i + 1, count + 1)
      else some (i + 1, count + 1)
    else some (i + 1, count)
  else none

/-- What can go wrong when the loop is run with a bound on its iterations
and with checked reads. -/
inductive LoopFault
  | outOfFuel
  | outOfRange
deriving DecidableEq

/-- The loop of `countWord` run for at most `fuel` iterations, every read
`word[i]` and `word[i+1]` checked against the length of the word. -/
def runLoop : Nat → JSString → Nat → Nat → Except LoopFault Nat
  | 0, _, _, _ => Except.error LoopFault.outOfFuel
  | fuel + 1, word, i, count =>
    if i < word.length then
      match word[i]? with
      | none => Except.error LoopFault.outOfRange
      | some c =>
        if isVowel c then
          if i + 1 < word.length then
            match word[i + 1]? with
            | none => Except.error LoopFault.outOfRange
            | some d =>
              if isVowel d && isDiphthong c d then runLoop fuel word (i + 1 + 1) (count + 1)
              else runLoop fuel word (i + 1) (count + 1)
          else runLoop fuel word (i + 1) (count + 1)
        else runLoop fuel word (i + 1) count
    else Except.ok count

/-- The function `countWord` with the loop run by `runLoop`, the bound on
the iterations being one more than the length of the scanned word. -/
def countWordChecked (P : Platform) (word : JSString) : Except LoopFault Nat :=
  if word = [] then Except.ok 0
  else
    (runLoop ((P.normalize (P.toLowerCase word)).length + 1)
      (P.normalize (P.toLowerCase word)) 0 0).map (max 1)

/-- The callback of `reduce` in `countText`, over `countWordChecked`. -/
def addWordChecked (P : Platform) (sum : Nat) (w : JSString) : Except LoopFault Nat :=
  if clean w ≠ [] then (countWordChecked P (clean w)).map (fun k => sum + k)
  else Except.ok sum

/-- The function `countText` over `countWordChecked`: a fault of any call
of `countWord` is a fault of `countText`. -/
def countTextChecked (P : Platform) (text : JSString) : Except LoopFault Nat :=
  if text = [] ∨ trim text = [] then Except.ok 0
  else (split (trim text)).foldlM (addWordChecked P) 0

/-! ## Case and accents of Spanish letters -/

/-- Membership in `[a-záéíóúüñ]`, the lowercase half of the letter class. -/
def isLowerSpanishLetter (c : Nat) : Bool :=
  (0x61 ≤ c && c ≤ 0x7A) || (utf16 "áéíóúüñ").contains c

/-- Unicode uppercase of a Spanish letter: `a`-`z` and `á é í ó ú ü ñ` move
down by 32, an uppercase letter is unchanged. -/
def toUpperSpanish (c : Nat) : Nat :=
  if isLowerSpanishLetter c then c - 32 else c

/-- The decomposed form of one Spanish letter: an accented vowel becomes its
base vowel followed by U+0301 (acute) or U+0308 (diaeresis); any other
letter is unchanged. -/
def decomposeUnit (c : Nat) : JSString :=
  if c = 0xE1 then [0x61, 0x301] else if c = 0xE9 then [0x65, 0x301]
  else if c = 0xED then [0x69, 0x301] else if c = 0xF3 then [0x6F, 0x301]
  else if c = 0xFA then [0x75, 0x301] else if c = 0xFC then [0x75, 0x308]
  else if c = 0xC1 then [0x41, 0x301] else if c = 0xC9 then [0x45, 0x301]
  else if c = 0xCD then [0x49, 0x301] else if c = 0xD3 then [0x4F, 0x301]
  else if c = 0xDA then [0x55, 0x301] else if c = 0xDC then [0x55, 0x308]
  else [c]

/-- The decomposed form of a word of Spanish letters. -/
def decompose : JSString → JSString
  | [] => []
  | c :: rest => decomposeUnit c ++ decompose rest

/-- Canonical composition of a lowercase base vowel with a following
combining acute accent or diaeresis. -/
def composePair (b m : Nat) : Option Nat :=
  if m = 0x301 then
    if b = 0x61 then some 0xE1 else if b = 0x65 then some 0xE9
    else if b = 0x69 then some 0xED else if b = 0x6F then some 0xF3
    else if b = 0x75 then some 0xFA else none
  else if m = 0x308 then
    if b = 0x75 then some 0xFC else none
  else none

/-- NFC on the lowercase form of a decomposed Spanish word: each vowel that
is followed by its combining mark is replaced by the precomposed vowel. -/
def recompose : JSString → JSString
  | [] => []
  | [c] => [c]
  | b :: m :: rest =>
    match composePair b m with
    | some p => p :: recompose rest
    | none => b :: recompose (m :: rest)

/-- On the decomposed form of a word of Spanish letters the engine
lowercases unit by unit (a combining mark has no case) and NFC recomposes
every vowel with the mark that follows it. -/
def Platform.Recomposes (P : Platform) : Prop :=
  ∀ w : JSString, (∀ c ∈ w, isSpanishLetter c = true) →
    P.toLowerCase (decompose w) = (decompose w).map toLowerLatin1 ∧
      P.normalize ((decompose w).map toLowerLatin1) =
        recompose ((decompose w).map toLowerLatin1)

/-- A platform that lowercases with the Latin-1 mapping and recomposes the
Spanish accented vowels: it agrees with a JavaScript engine on every string
below U+0100 and on the decomposed form of every word of Spanish letters. -/
def Platform.spanish : Platform where
  toLowerCase := fun w => w.map toLowerLatin1
  normalize := recompose

/-! ## More specification-side definitions -/

/-- Two code units that are equal, or both not vowels. -/
def sameNucleus (a b : Nat) : Prop := a = b ∨ (isVowel a = false ∧ isVowel b = false)

/-- The number of vowel characters of a string. -/
def vowelCount (s : JSString) : Nat := (s.filter isVowel).length

/-- The whitespace-delimited tokens of a text: the non-empty pieces of the
trimmed text split on runs of whitespace. -/
def tokens (t : JSString) : List JSString :=
  (split (trim t)).filter (fun w => decide (w.length > 0))

/-- A Spanish letter without its accent: the first unit of its decomposed
form (`á` gives `a`, `ü` gives `u`, an unaccented letter is unchanged). -/
def baseLetter (c : Nat) : Nat := (decomposeUnit c).headD c

/-- The value of a list of decimal digit characters read from the left,
starting from `acc`. -/
def readDigits (acc : Nat) (ds : List Char) : Nat :=
  ds.foldl (fun a c => a * 10 + (c.toNat - 48)) acc

/-! ## The loop of `countWord` -/

theorem scan_drop (word : JSString) (i : Nat) (h : i < word.length) :
    scan (word.drop i) =
      if isVowel word[i] then
        if h1 : i + 1 < word.length then
          if isVowel word[i + 1] && isDiphthong word[i] word[i + 1] then
            1 + scan (word.drop (i + 1 + 1))
          else 1 + scan (word.drop (i + 1))
        else 1 + scan (word.drop (i + 1))
      else scan (word.drop (i + 1)) := by
  rw [List.drop_eq_getElem_cons h]
  by_cases h1 : i + 1 < word.length
  · rw [List.drop_eq_getElem_cons h1]
    simp only [scan, h1, dite_true]
  · have h2 : word.drop (i + 1) = [] := List.drop_eq_nil_of_le (by omega)
    rw [h2]
    simp only [scan, h1, dite_false]

/-- The index loop started at `i` adds to `count` what `scan` finds in the
suffix that starts at `i`. -/
theorem countLoop_eq_scan (word : JSString) (i count : Nat) :
    countLoop word i count = count + scan (word.drop i) := by
  generalize h : word.length - i = n
  induction n using Nat.strong_induction_on generalizing i count with
  | _ n ih =>
    rw [countLoop]
    by_cases hi : i < word.length
    · rw [scan_drop word i hi]
      simp only [hi, dite_true]
      have e1 : ∀ c, countLoop word (i + 1) c = c + scan (word.drop (i + 1)) :=
        fun c => ih _ (by omega) (i + 1) c rfl
      have e2 : ∀ c, countLoop word (i + 1 + 1) c = c + scan (word.drop (i + 1 + 1)) :=
        fun c => ih _ (by omega) (i + 1 + 1) c rfl
      split
      · split
        · split
          · rw [e2]; omega
          · rw [e1]; omega
        · rw [e1]; omega
      · rw [e1]
    · have h2 : word.drop i = [] := List.drop_eq_nil_of_le (by omega)
      simp [hi, h2, scan]

theorem countWord_eq_scan (P : Platform) (w : JSString) :
    countWord P w = if w = [] then 0 else max 1 (scan (P.normalize (P.toLowerCase w))) := by
  unfold countWord
  rw [countLoop_eq_scan]
  simp

theorem countWord_pos (P : Platform) (w : JSString) (hw : w ≠ []) : 1 ≤ countWord P w := by
  rw [countWord_eq_scan, if_neg hw]
  exact le_max_left _ _

theorem Platform.latin1_conforms : Platform.latin1.Latin1 := by
  intro w _
  exact ⟨rfl, rfl⟩

theorem toLowerLatin1_lt (c : Nat) (h : c < 0x100) : toLowerLatin1 c < 0x100 := by
  unfold toLowerLatin1
  split <;> omega

/-- On a word below U+0100 a conforming platform makes `countWord` the
executable `wordScore`. -/
theorem countWord_eq_wordScore (P : Platform) (hP : P.Latin1) (w : JSString)
    (hw : ∀ c ∈ w, c < 0x100) : countWord P w = wordScore w := by
  have h1 := (hP w hw).1
  have h2 : ∀ c ∈ w.map toLowerLatin1, c < 0x100 := by
    intro c hc
    obtain ⟨d, hd, rfl⟩ := List.mem_map.1 hc
    exact toLowerLatin1_lt d (hw d hd)
  have h3 := (hP _ h2).2
  rw [countWord_eq_scan, h1, h3]
  rfl

/-- Every member of the diphthong table is a pair of vowels. -/
theorem isDiphthong_vowels (a b : Nat) (h : isDiphthong a b = true) :
    isVowel a = true ∧ isVowel b = true := by
  have key : ∀ x ∈ DIPHTHONGS, ∀ a b, x = [a, b] → isVowel a = true ∧ isVowel b = true := by
    have hd : ∀ x ∈ DIPHTHONGS,
        isVowel (x.getD 0 0) = true ∧ isVowel (x.getD 1 0) = true := by decide
    intro x hx a b hab
    have := hd x hx
    subst hab
    simpa using this
  have hm : [a, b] ∈ DIPHTHONGS := by
    simpa [isDiphthong] using h
  exact key _ hm a b rfl

theorem scan_eq_specScan : ∀ w : JSString, scan w = specScan w
  | [] => rfl
  | [_] => rfl
  | c :: d :: rest => by
    have ih1 := scan_eq_specScan rest
    have ih2 := scan_eq_specScan (d :: rest)
    simp only [scan, specScan]
    by_cases hd : isDiphthong c d = true
    · obtain ⟨hc, hd2⟩ := isDiphthong_vowels c d hd
      simp [hc, hd2, hd, ih1]
    · simp only [Bool.not_eq_true] at hd
      by_cases hc : isVowel c = true
      · simp [hc, hd, ih2]
      · simp only [Bool.not_eq_true] at hc
        simp [hc, hd, ih2]

set_option maxRecDepth 100000 in
theorem isVowel_of_toLowerLatin1 (c : Nat) (h : c < 0x100)
    (hv : isVowel (toLowerLatin1 c) = true) : isVowel c = true := by
  have key : ∀ c, c < 0x100 → isVowel (toLowerLatin1 c) = true → isVowel c = true := by
    decide
  exact key c h hv

theorem isSpanishLetter_of_isVowel (c : Nat) (h : isVowel c = true) :
    isSpanishLetter c = true := by
  have key : ∀ c ∈ VOWELS, isSpanishLetter c = true := by decide
  exact key c (by simpa [isVowel] using h)

theorem scan_eq_zero (w : JSString) (h : ∀ c ∈ w, isVowel c = false) : scan w = 0 := by
  rw [scan_eq_specScan]
  induction w with
  | nil => rfl
  | cons c rest ih =>
    have hc := h c (List.mem_cons_self _ _)
    have ih2 := ih (fun x hx => h x (List.mem_cons_of_mem _ hx))
    cases rest with
    | nil => simp [specScan, hc]
    | cons d rest2 =>
      have hcd : isDiphthong c d = false := by
        cases hx : isDiphthong c d with
        | false => rfl
        | true => have := (isDiphthong_vowels c d hx).1; simp [hc] at this
      simp [specScan, hc, hcd, ih2]

/-- A non-empty word whose scanned form has no vowel gets the floor 1. -/
theorem countWord_eq_one_of_no_vowel (P : Platform) (w : JSString) (hw : w ≠ [])
    (hv : ∀ c ∈ P.normalize (P.toLowerCase w), isVowel c = false) : countWord P w = 1 := by
  rw [countWord_eq_scan, if_neg hw, scan_eq_zero _ hv]
  rfl

/-- A non-empty word below U+0100 with no vowel gets the floor 1. -/
theorem countWord_eq_one_of_no_vowel_latin1 (P : Platform) (hP : P.Latin1) (w : JSString)
    (hw : w ≠ []) (hv : ∀ c ∈ w, c < 0x100 ∧ isVowel c = false) : countWord P w = 1 := by
  rw [countWord_eq_wordScore P hP w (fun c hc => (hv c hc).1)]
  unfold wordScore
  rw [if_neg hw, scan_eq_zero]
  · rfl
  · intro c hc
    obtain ⟨d, hd, rfl⟩ := List.mem_map.1 hc
    cases hx : isVowel (toLowerLatin1 d) with
    | false => rfl
    | true =>
      have := isVowel_of_toLowerLatin1 d (hv d hd).1 hx
      simp [(hv d hd).2] at this

/-! ## Texts -/

theorem foldl_addWord (P : Platform) (l : List JSString) (a : Nat) :
    l.foldl (addWord P) a = a + (l.map (fun w => wordValue P (clean w))).sum := by
  induction l generalizing a with
  | nil => simp
  | cons w l ih =>
    simp only [List.foldl_cons, List.map_cons, List.sum_cons, ih]
    simp only [addWord, wordValue]
    omega

theorem clean_append_unit (cur : JSString) (c : Nat) :
    clean (cur ++ [c]) = if isSpanishLetter c then clean cur ++ [c] else clean cur := by
  unfold clean
  rw [List.filter_append]
  by_cases h : isSpanishLetter c = true
  · simp [h]
  · simp [h]

theorem sum_splitGo (v : JSString → Nat) (hv : v [] = 0) (rest : JSString) :
    ∀ (b : Bool) (cur : JSString), (b = true → cur = []) →
      ((splitGo b cur rest).map (fun w => v (clean w))).sum = textPass v (clean cur) rest := by
  induction rest with
  | nil => intro b cur _; simp [splitGo, textPass]
  | cons c rest ih =>
    intro b cur hb
    by_cases hc : isWhiteSpace c = true
    · have e := ih true [] (fun _ => rfl)
      have e0 : clean [] = [] := rfl
      rw [e0] at e
      cases b with
      | true =>
        have hcur := hb rfl
        subst hcur
        simp only [splitGo, textPass, hc, if_true, e, e0, hv]
        omega
      | false =>
        simp [splitGo, textPass, hc, e]
    · have e := ih false (cur ++ [c]) (fun h => by simp at h)
      rw [clean_append_unit] at e
      simpa [splitGo, textPass, hc] using e

theorem textPass_dropWhile (v : JSString → Nat) (hv : v [] = 0) (t : JSString) :
    textPass v [] (t.dropWhile isWhiteSpace) = textPass v [] t := by
  induction t with
  | nil => rfl
  | cons c rest ih =>
    by_cases hc : isWhiteSpace c = true
    · rw [List.dropWhile_cons_of_pos hc, ih]
      simp [textPass, hc, hv]
    · rw [List.dropWhile_cons_of_neg hc]

theorem textPass_all_ws (v : JSString → Nat) (hv : v [] = 0) (tail : JSString)
    (ht : ∀ c ∈ tail, isWhiteSpace c = true) (cur : JSString) :
    textPass v cur tail = v cur := by
  induction tail generalizing cur with
  | nil => rfl
  | cons c rest ih =>
    have hc := ht c (List.mem_cons_self _ _)
    simp [textPass, hc, ih (fun x hx => ht x (List.mem_cons_of_mem _ hx)), hv]

theorem textPass_append_ws (v : JSString → Nat) (hv : v [] = 0) (tail : JSString)
    (ht : ∀ c ∈ tail, isWhiteSpace c = true) (s cur : JSString) :
    textPass v cur (s ++ tail) = textPass v cur s := by
  induction s generalizing cur with
  | nil => simpa [textPass] using textPass_all_ws v hv tail ht cur
  | cons c rest ih =>
    simp only [List.cons_append, textPass, List.append_eq, ih]

/-- What `trim` removes at the end is whitespace. -/
theorem trim_decomp (s : JSString) :
    ∃ tail : JSString, (∀ c ∈ tail, isWhiteSpace c = true) ∧
      s.dropWhile isWhiteSpace = trim s ++ tail := by
  refine ⟨((s.dropWhile isWhiteSpace).reverse.takeWhile isWhiteSpace).reverse, ?_, ?_⟩
  · intro c hc
    exact List.mem_takeWhile_imp (List.mem_reverse.1 hc)
  · unfold trim
    rw [← List.reverse_append, List.takeWhile_append_dropWhile, List.reverse_reverse]

theorem textPass_trim (v : JSString → Nat) (hv : v [] = 0) (t : JSString) :
    textPass v [] (trim t) = textPass v [] t := by
  obtain ⟨tail, ht, e⟩ := trim_decomp t
  rw [← textPass_dropWhile v hv t, e, textPass_append_ws v hv tail ht]

theorem wordValue_nil (P : Platform) : wordValue P [] = 0 := rfl

/-- The source of `countText` computes the one-pass sum. -/
theorem countText_eq_textPass (P : Platform) (t : JSString) :
    countText P t = textPass (wordValue P) [] t := by
  unfold countText
  by_cases h : t = [] ∨ trim t = []
  · rw [if_pos h, ← textPass_trim _ (wordValue_nil P)]
    rcases h with h | h
    · subst h; rfl
    · rw [h]; rfl
  · rw [if_neg h, foldl_addWord, Nat.zero_add, split,
      sum_splitGo (wordValue P) (wordValue_nil P) _ false [] (fun h => by simp at h),
      ← textPass_trim _ (wordValue_nil P) t]
    rfl

theorem textPass_congr (v v2 : JSString → Nat)
    (h : ∀ w : JSString, (∀ c ∈ w, isSpanishLetter c = true) → v w = v2 w) (t : JSString) :
    ∀ cur : JSString, (∀ c ∈ cur, isSpanishLetter c = true) →
      textPass v cur t = textPass v2 cur t := by
  induction t with
  | nil => intro cur hcur; exact h cur hcur
  | cons c rest ih =>
    intro cur hcur
    simp only [textPass]
    rw [h cur hcur, ih [] (by simp)]
    by_cases hc : isSpanishLetter c = true
    · rw [if_pos hc, ih (cur ++ [c])]
      intro x hx
      rcases List.mem_append.1 hx with hx | hx
      · exact hcur x hx
      · simp at hx; subst hx; exact hc
    · rw [if_neg hc, ih cur hcur]

theorem isSpanishLetter_lt (c : Nat) (h : isSpanishLetter c = true) : c < 0x100 := by
  unfold isSpanishLetter at h
  simp only [Bool.or_eq_true, Bool.and_eq_true, decide_eq_true_eq] at h
  have e1 : ∀ x ∈ utf16 "áéíóúüñ", x < 0x100 := by decide
  have e2 : ∀ x ∈ utf16 "ÁÉÍÓÚÜÑ", x < 0x100 := by decide
  rcases h with ((h | h) | h) | h
  · omega
  · exact e1 c (by simpa using h)
  · omega
  · exact e2 c (by simpa using h)

/-- For a conforming platform `countText` is the executable pass with
`wordScore`, on every text. -/
theorem countText_eq_score (P : Platform) (hP : P.Latin1) (t : JSString) :
    countText P t = textPass wordScore [] t := by
  rw [countText_eq_textPass]
  refine textPass_congr _ _ ?_ t [] (by simp)
  intro w hw
  unfold wordValue
  by_cases hne : w = []
  · subst hne; rfl
  · rw [if_pos hne]
    exact countWord_eq_wordScore P hP w (fun c hc => isSpanishLetter_lt c (hw c hc))

set_option maxRecDepth 100000 in
theorem isSpanishLetter_iff_mem (c : Nat) :
    isSpanishLetter c = true ↔ c ∈ spanishLetters := by
  by_cases h : c < 0x100
  · have key : ∀ c, c < 0x100 → (isSpanishLetter c = true ↔ c ∈ spanishLetters) := by
      decide
    exact key c h
  · constructor
    · intro hl
      exact absurd (isSpanishLetter_lt c hl) h
    · intro hm
      have e : ∀ x ∈ spanishLetters, x < 0x100 := by decide
      exact absurd (e c hm) h

set_option maxRecDepth 100000 in
theorem not_letter_of_ws (c : Nat) (h : isWhiteSpace c = true) : isSpanishLetter c = false := by
  cases hx : isSpanishLetter c with
  | false => rfl
  | true =>
    have key : ∀ c, c < 0x100 → isSpanishLetter c = true → isWhiteSpace c = false := by
      decide
    have := key c (isSpanishLetter_lt c hx) hx
    simp [h] at this

theorem textPass_eq_zero_iff (v : JSString → Nat) (hv : ∀ w, v w = 0 ↔ w = [])
    (t : JSString) : ∀ cur : JSString,
      (textPass v cur t = 0 ↔ cur = [] ∧ ∀ c ∈ t, isSpanishLetter c = false) := by
  induction t with
  | nil => intro cur; simp [textPass, hv]
  | cons c rest ih =>
    intro cur
    by_cases hc : isWhiteSpace c = true
    · have hl := not_letter_of_ws c hc
      simp [textPass, hc, ih, hv, hl]
    · by_cases hl : isSpanishLetter c = true
      · simp [textPass, hc, hl, ih]
      · simp only [Bool.not_eq_true] at hl
        simp [textPass, hc, hl, ih]

theorem wordValue_eq_zero_iff (P : Platform) (w : JSString) : wordValue P w = 0 ↔ w = [] := by
  unfold wordValue
  by_cases h : w = []
  · simp [h]
  · have := countWord_pos P w h
    simp [h]
    omega

theorem textPass_filter (v : JSString → Nat) (t : JSString) : ∀ cur : JSString,
    textPass v cur (t.filter (fun c => isWhiteSpace c || isSpanishLetter c)) =
      textPass v cur t := by
  induction t with
  | nil => intro cur; rfl
  | cons c rest ih =>
    intro cur
    by_cases hc : isWhiteSpace c = true
    · simp [List.filter_cons, textPass, hc, ih]
    · by_cases hl : isSpanishLetter c = true
      · simp [List.filter_cons, textPass, hc, hl, ih]
      · simp [List.filter_cons, textPass, hc, hl, ih]

/-! ## The claims about `countWord` -/

/-- Claim C1, as stated, fails: `countWord("poesía")` is 4, not 3. -/
theorem countWord_poesia_not_three :
    countWord Platform.latin1 (utf16 "poesía") = 4 ∧
      countWord Platform.latin1 (utf16 "poesía") ≠ 3 := by
  rw [countWord_eq_wordScore _ Platform.latin1_conforms _ (by decide)]
  decide

/-- Claim C1, amended: `countWord("poesía")` is 4. The word p-o-e-s-í-a has
the nuclei o, e, í and a: the pair "ía" (U+00ED, U+0061) is not a member of
the diphthong table, so í and a are counted separately. -/
theorem countWord_poesia (P : Platform) (hP : P.Latin1) :
    countWord P (utf16 "poesía") = 4 ∧ utf16 "ía" = [0xED, 0x61] ∧
      isDiphthong 0xED 0x61 = false := by
  rw [countWord_eq_wordScore P hP _ (by decide)]
  decide

/-- The amended C1 at a conforming platform. -/
theorem countWord_poesia_witness :
    Platform.latin1.Latin1 ∧ countWord Platform.latin1 (utf16 "poesía") = 4 :=
  ⟨Platform.latin1_conforms, (countWord_poesia Platform.latin1 Platform.latin1_conforms).1⟩

/-- Claim C2: for every non-empty word `w`, `countWord(w)` is `max(1, N(s))`
where `s` is `w` lowercased and NFC-normalised and `N` is the scan as the
specification words it (`specScan`); every member of the diphthong table is a
pair of vowels, which is why the nesting and the extra vowel test of the code
change nothing; `countWord("hola")` and `countWord("aire")` are 2. -/
theorem countWord_refines_specScan (P : Platform) (w : JSString) (hw : w ≠ []) :
    countWord P w = max 1 (specScan (P.normalize (P.toLowerCase w))) ∧
      (∀ a b, isDiphthong a b = true → isVowel a = true ∧ isVowel b = true) ∧
      (P.Latin1 → countWord P (utf16 "hola") = 2 ∧ countWord P (utf16 "aire") = 2) := by
  refine ⟨?_, isDiphthong_vowels, ?_⟩
  · rw [countWord_eq_scan, if_neg hw, scan_eq_specScan]
  · intro hP
    rw [countWord_eq_wordScore P hP _ (by decide), countWord_eq_wordScore P hP _ (by decide)]
    decide

/-- Claim C2 at the word "hola". -/
theorem countWord_refines_specScan_witness :
    utf16 "hola" ≠ [] ∧
      countWord Platform.latin1 (utf16 "hola") =
        max 1 (specScan (Platform.latin1.normalize
          (Platform.latin1.toLowerCase (utf16 "hola")))) ∧
      countWord Platform.latin1 (utf16 "hola") = 2 ∧
      countWord Platform.latin1 (utf16 "aire") = 2 :=
  have h := countWord_refines_specScan Platform.latin1 (utf16 "hola") (by decide)
  ⟨by decide, h.1, h.2.2 Platform.latin1_conforms⟩

/-- Claim C3: for every two lowercase vowels `a` and `b` of the vowel set,
`countWord` of the two-character word `ab` is 1 when `ab` is a member of the
diphthong table and 2 otherwise. -/
theorem countWord_vowel_pair (P : Platform) (hP : P.Latin1) (a b : Nat)
    (ha : a ∈ lowerVowels) (hb : b ∈ lowerVowels) :
    countWord P [a, b] = if isDiphthong a b = true then 1 else 2 := by
  have key : ∀ a ∈ lowerVowels, ∀ b ∈ lowerVowels,
      (a < 0x100 ∧ b < 0x100) ∧
        wordScore [a, b] = if isDiphthong a b = true then 1 else 2 := by decide
  obtain ⟨⟨h1, h2⟩, h3⟩ := key a ha b hb
  rw [countWord_eq_wordScore P hP _ (by simp [h1, h2]), h3]

/-- Claim C3 at the pairs "ai" (a table member) and "ea" (a hiatus). -/
theorem countWord_vowel_pair_witness :
    countWord Platform.latin1 (utf16 "ai") = 1 ∧ countWord Platform.latin1 (utf16 "ea") = 2 :=
  ⟨countWord_vowel_pair Platform.latin1 Platform.latin1_conforms 0x61 0x69
      (by decide) (by decide),
    countWord_vowel_pair Platform.latin1 Platform.latin1_conforms 0x65 0x61
      (by decide) (by decide)⟩

theorem lowerDotted_of_lt (w : JSString) (hw : ∀ c ∈ w, c < 0x100) :
    lowerDotted w = w.map toLowerLatin1 := by
  induction w with
  | nil => rfl
  | cons c rest ih =>
    have hc : c ≠ 0x130 := by
      have := hw c (List.mem_cons_self _ _)
      omega
    simp only [lowerDotted, if_neg hc, List.map_cons, List.singleton_append,
      ih (fun x hx => hw x (List.mem_cons_of_mem _ hx))]

theorem Platform.dotted_latin1 : Platform.dotted.Latin1 := by
  intro w hw
  exact ⟨lowerDotted_of_lt w hw, rfl⟩

/-- Claim C4, as stated, fails: the word "İİ" (U+0130 twice) is not empty
and has no vowel character, its lowercase form is i, U+0307, i, U+0307, and
`countWord` returns 2, not 1. -/
theorem countWord_dotted_capital_I :
    utf16 "İİ" = [0x130, 0x130] ∧ (utf16 "İİ").any isVowel = false ∧
      Platform.dotted.normalize (Platform.dotted.toLowerCase (utf16 "İİ")) =
        [0x69, 0x307, 0x69, 0x307] ∧
      countWord Platform.dotted (utf16 "İİ") = 2 ∧
      countWord Platform.dotted (utf16 "İİ") ≠ 1 := by
  rw [countWord_eq_scan]
  decide

/-- Claim C4, amended: `countWord("")` is 0; for every non-empty word
`countWord` is at least 1; a non-empty word whose lowercased, NFC-normalised
form has no vowel character, and so every non-empty word of code units below
U+0100 with no vowel character, returns exactly 1, as `countWord("xyz")`
does. -/
theorem countWord_floor_and_empty (P : Platform) :
    countWord P [] = 0 ∧
      (∀ w : JSString, w ≠ [] → 1 ≤ countWord P w) ∧
      (∀ w : JSString, w ≠ [] →
        (∀ c ∈ P.normalize (P.toLowerCase w), isVowel c = false) → countWord P w = 1) ∧
      (P.Latin1 →
        (∀ w : JSString, w ≠ [] → (∀ c ∈ w, c < 0x100 ∧ isVowel c = false) →
          countWord P w = 1) ∧
        countWord P (utf16 "xyz") = 1) :=
  ⟨rfl, countWord_pos P, countWord_eq_one_of_no_vowel P, fun hP =>
    ⟨countWord_eq_one_of_no_vowel_latin1 P hP,
      countWord_eq_one_of_no_vowel_latin1 P hP _ (by decide) (by decide)⟩⟩

/-- The amended C4 at the word "xyz". -/
theorem countWord_floor_and_empty_witness :
    countWord Platform.latin1 [] = 0 ∧ 1 ≤ countWord Platform.latin1 (utf16 "xyz") ∧
      countWord Platform.latin1 (utf16 "xyz") = 1 :=
  ⟨(countWord_floor_and_empty Platform.latin1).1,
    (countWord_floor_and_empty Platform.latin1).2.1 (utf16 "xyz") (by decide),
    ((countWord_floor_and_empty Platform.latin1).2.2.2 Platform.latin1_conforms).2⟩

/-- Claim C5, as stated, fails: the string "123" contains no letter and
`countWord("123")` is 1, not 0. -/
theorem countWord_digits_not_zero :
    (utf16 "123").any isSpanishLetter = false ∧
      countWord Platform.latin1 (utf16 "123") = 1 ∧
      countWord Platform.latin1 (utf16 "123") ≠ 0 := by
  rw [countWord_eq_wordScore _ Platform.latin1_conforms _ (by decide)]
  decide

/-- Claim C5, amended: `countWord` returns 0 for the empty string and only
for it; a non-empty string that contains no letter at all (code units below
U+0100, none of them in the letter class of the module) returns 1, as
`countWord("123")` and `countWord("¿?")` do. -/
theorem countWord_zero_iff_empty (P : Platform) (hP : P.Latin1) (w : JSString) :
    (countWord P w = 0 ↔ w = []) ∧
      (w ≠ [] → (∀ c ∈ w, c < 0x100 ∧ isSpanishLetter c = false) → countWord P w = 1) ∧
      countWord P (utf16 "123") = 1 ∧ countWord P (utf16 "¿?") = 1 := by
  have gen : ∀ w : JSString, w ≠ [] →
      (∀ c ∈ w, c < 0x100 ∧ isSpanishLetter c = false) → countWord P w = 1 := by
    intro w hw hl
    refine countWord_eq_one_of_no_vowel_latin1 P hP w hw ?_
    intro c hc
    refine ⟨(hl c hc).1, ?_⟩
    cases hx : isVowel c with
    | false => rfl
    | true =>
      have := isSpanishLetter_of_isVowel c hx
      simp [(hl c hc).2] at this
  refine ⟨⟨?_, ?_⟩, gen w, gen _ (by decide) (by decide), gen _ (by decide) (by decide)⟩
  · intro h0
    by_contra hne
    have := countWord_pos P w hne
    omega
  · intro h
    subst h
    rfl

/-- The amended C5 at the string "123". -/
theorem countWord_zero_iff_empty_witness :
    utf16 "123" ≠ [] ∧ countWord Platform.latin1 (utf16 "123") = 1 :=
  ⟨by decide,
    (countWord_zero_iff_empty Platform.latin1 Platform.latin1_conforms (utf16 "123")).2.1
      (by decide) (by decide)⟩

/-! ## The claims about `countText` -/

/-- Claim C6: for every text `t`, `countText(t)` is the sum, over the tokens
obtained by trimming `t` and splitting it on runs of whitespace, of
`countWord(clean(token))` when `clean(token)` is non-empty and 0 when it is
empty, where `clean` keeps exactly the letters `a`-`z`, `A`-`Z`,
`á é í ó ú ü ñ` and their uppercase forms;
`countText("Verso de once sílabas aquí")` is 2 + 1 + 2 + 3 + 3 = 11. -/
theorem countText_sum_of_tokens (P : Platform) (t : JSString) :
    countText P t =
        ((split (trim t)).map
          (fun tok => if clean tok = [] then 0 else countWord P (clean tok))).sum ∧
      (∀ tok : JSString, clean tok = tok.filter (fun c => decide (c ∈ spanishLetters))) ∧
      (P.Latin1 →
        countWord P (utf16 "Verso") = 2 ∧ countWord P (utf16 "de") = 1 ∧
        countWord P (utf16 "once") = 2 ∧ countWord P (utf16 "sílabas") = 3 ∧
        countWord P (utf16 "aquí") = 3 ∧
        countText P (utf16 "Verso de once sílabas aquí") = 2 + 1 + 2 + 3 + 3) := by
  refine ⟨?_, ?_, ?_⟩
  · unfold countText
    by_cases h : t = [] ∨ trim t = []
    · have ht : trim t = [] := by
        rcases h with h | h
        · subst h; rfl
        · exact h
      rw [if_pos h, ht]
      rfl
    · rw [if_neg h, foldl_addWord, Nat.zero_add]
      congr 1
      apply List.map_congr_left
      intro tok _
      unfold wordValue
      by_cases hc : clean tok = [] <;> simp [hc]
  · intro tok
    unfold clean
    apply List.filter_congr
    intro c _
    by_cases h : isSpanishLetter c = true
    · simp [h, (isSpanishLetter_iff_mem c).1 h]
    · have hn : c ∉ spanishLetters := fun hm => h ((isSpanishLetter_iff_mem c).2 hm)
      simp [h, hn]
  · intro hP
    rw [countText_eq_score P hP]
    repeat rw [countWord_eq_wordScore P hP _ (by decide)]
    decide

/-- Claim C6 at its witness text. -/
theorem countText_sum_of_tokens_witness :
    split (trim (utf16 " Verso  de once\nsílabas aquí... ")) =
        [utf16 "Verso", utf16 "de", utf16 "once", utf16 "sílabas", utf16 "aquí..."] ∧
      countText Platform.latin1 (utf16 " Verso  de once\nsílabas aquí... ") =
        ((split (trim (utf16 " Verso  de once\nsílabas aquí... "))).map
          (fun tok => if clean tok = [] then 0
            else countWord Platform.latin1 (clean tok))).sum ∧
      countText Platform.latin1 (utf16 "Verso de once sílabas aquí") = 11 :=
  have h := countText_sum_of_tokens Platform.latin1 (utf16 " Verso  de once\nsílabas aquí... ")
  ⟨by decide, h.1, (h.2.2 Platform.latin1_conforms).2.2.2.2.2⟩

/-- Claim C7: for every text `t`, `countText(t)` is 0 if and only if `t`
contains no Spanish letter; the empty string, a whitespace-only string and a
text of punctuation, digits and symbols give 0, not 1. -/
theorem countText_eq_zero_iff (P : Platform) (t : JSString) :
    (countText P t = 0 ↔ ∀ c ∈ t, c ∉ spanishLetters) ∧
      countText P [] = 0 ∧ countText P (utf16 " \t\n ") = 0 ∧
      countText P (utf16 "¡¿12, 3?! ... (-)") = 0 := by
  have gen : ∀ t : JSString, (countText P t = 0 ↔ ∀ c ∈ t, c ∉ spanishLetters) := by
    intro t
    rw [countText_eq_textPass, textPass_eq_zero_iff _ (wordValue_eq_zero_iff P)]
    simp [← isSpanishLetter_iff_mem]
  exact ⟨gen t, rfl, (gen _).2 (by decide), (gen _).2 (by decide)⟩

/-- Claim C7 at a text of punctuation and digits. -/
theorem countText_eq_zero_iff_witness :
    countText Platform.latin1 (utf16 "¡¿12, 3?!") = 0 :=
  ((countText_eq_zero_iff Platform.latin1 (utf16 "¡¿12, 3?!")).1).2 (by decide)

/-- Claim C8: for every text `t`, `countText(t)` is `countText(t')` where
`t'` is `t` with every character that is neither whitespace nor a Spanish
letter deleted; `countText("[Coro]")` and `countText("Coro")` are both 2. -/
theorem countText_ignores_nonletters (P : Platform) (t : JSString) :
    countText P t =
        countText P (t.filter (fun c => isWhiteSpace c || isSpanishLetter c)) ∧
      (utf16 "[Coro]").filter (fun c => isWhiteSpace c || isSpanishLetter c) = utf16 "Coro" ∧
      (P.Latin1 → countText P (utf16 "[Coro]") = 2 ∧ countText P (utf16 "Coro") = 2) := by
  refine ⟨?_, by decide, ?_⟩
  · rw [countText_eq_textPass, countText_eq_textPass, textPass_filter]
  · intro hP
    rw [countText_eq_score P hP, countText_eq_score P hP]
    decide

/-- Claim C8 at the text "[Coro]". -/
theorem countText_ignores_nonletters_witness :
    countText Platform.latin1 (utf16 "[Coro]") = countText Platform.latin1 (utf16 "Coro") ∧
      countText Platform.latin1 (utf16 "[Coro]") = 2 :=
  have h := countText_ignores_nonletters Platform.latin1 (utf16 "[Coro]")
  ⟨(h.2.2 Platform.latin1_conforms).1.trans (h.2.2 Platform.latin1_conforms).2.symm,
    (h.2.2 Platform.latin1_conforms).1⟩

/-! ## Words -/

theorem length_filter_splitGo (rest : JSString) :
    ∀ (b : Bool) (cur : JSString), (b = true → cur = []) →
      ((splitGo b cur rest).filter (fun w => decide (w.length > 0))).length =
        if cur ≠ [] then 1 + runStarts false rest else runStarts true rest := by
  induction rest with
  | nil =>
    intro b cur _
    by_cases h : cur = []
    · subst h; simp [splitGo, runStarts]
    · have : 0 < cur.length := List.length_pos.2 h
      simp [splitGo, runStarts, h, this]
  | cons c rest ih =>
    intro b cur hb
    by_cases hc : isWhiteSpace c = true
    · have e := ih true [] (fun _ => rfl)
      simp only [ne_eq, not_true_eq_false, if_false] at e
      cases b with
      | true =>
        have hcur := hb rfl
        subst hcur
        simp [splitGo, runStarts, hc, e]
      | false =>
        by_cases h : cur = []
        · subst h; simp [splitGo, runStarts, hc, e]
        · have : 0 < cur.length := List.length_pos.2 h
          simp [splitGo, runStarts, hc, e, h, this, List.filter_cons]
          omega
    · have e := ih false (cur ++ [c]) (fun h => by simp at h)
      simp only [Bool.not_eq_true] at hc
      by_cases h : cur = []
      · subst h
        simp [splitGo, runStarts, hc] at e ⊢
        omega
      · simp [splitGo, runStarts, hc, h] at e ⊢
        omega

theorem runStarts_all_ws (tail : JSString) (ht : ∀ c ∈ tail, isWhiteSpace c = true)
    (b : Bool) : runStarts b tail = 0 := by
  induction tail generalizing b with
  | nil => rfl
  | cons c rest ih =>
    have hc := ht c (List.mem_cons_self _ _)
    simp [runStarts, hc, ih (fun x hx => ht x (List.mem_cons_of_mem _ hx))]

theorem runStarts_dropWhile (t : JSString) :
    runStarts true (t.dropWhile isWhiteSpace) = runStarts true t := by
  induction t with
  | nil => rfl
  | cons c rest ih =>
    by_cases hc : isWhiteSpace c = true
    · rw [List.dropWhile_cons_of_pos hc, ih]
      simp [runStarts, hc]
    · rw [List.dropWhile_cons_of_neg hc]

theorem runStarts_append_ws (tail : JSString) (ht : ∀ c ∈ tail, isWhiteSpace c = true)
    (s : JSString) (b : Bool) : runStarts b (s ++ tail) = runStarts b s := by
  induction s generalizing b with
  | nil => simpa [runStarts] using runStarts_all_ws tail ht b
  | cons c rest ih =>
    simp only [List.cons_append, runStarts, List.append_eq, ih]

theorem numRuns_trim (t : JSString) : numRuns (trim t) = numRuns t := by
  obtain ⟨tail, ht, e⟩ := trim_decomp t
  unfold numRuns
  rw [← runStarts_dropWhile t, e, runStarts_append_ws tail ht]

theorem splitGo_ne_nil (rest : JSString) :
    ∀ (b : Bool) (cur : JSString), (rest = [] → cur ≠ []) →
      (∀ x, rest.getLast? = some x → isWhiteSpace x = false) →
      (cur = [] → b = false → ∀ x, rest.head? = some x → isWhiteSpace x = false) →
      ∀ tok ∈ splitGo b cur rest, tok ≠ [] := by
  induction rest with
  | nil =>
    intro b cur h1 _ _ tok htok
    simp only [splitGo, List.mem_singleton] at htok
    subst htok
    exact h1 rfl
  | cons c rest ih =>
    intro b cur _ h2 h3 tok htok
    have hlast : ∀ x, rest.getLast? = some x → isWhiteSpace x = false := by
      intro x hx
      apply h2 x
      cases rest with
      | nil => simp at hx
      | cons d rest2 => simpa [List.getLast?_cons_cons] using hx
    by_cases hc : isWhiteSpace c = true
    · have hrest : rest = [] → ([] : JSString) ≠ [] := by
        intro hr
        subst hr
        have := h2 c (by simp)
        simp [hc] at this
      have rec := ih true [] hrest hlast (fun _ hb => by simp at hb)
      cases b with
      | true =>
        simp only [splitGo, hc, if_true] at htok
        exact rec tok htok
      | false =>
        simp only [splitGo, hc, if_true, Bool.false_eq_true, if_false,
          List.mem_cons] at htok
        rcases htok with h | h
        · subst h
          intro hcur
          have := h3 hcur rfl c (by simp)
          simp [hc] at this
        · exact rec tok h
    · have rec := ih false (cur ++ [c]) (fun _ => by simp) hlast
        (fun h => by simp at h)
      simp only [splitGo, hc] at htok
      exact rec tok htok

theorem trim_getLast (t : JSString) :
    ∀ x, (trim t).getLast? = some x → isWhiteSpace x = false := by
  intro x hx
  unfold trim at hx
  rw [List.getLast?_reverse] at hx
  have := List.head?_dropWhile_not isWhiteSpace (t.dropWhile isWhiteSpace).reverse
  rw [hx] at this
  exact this

theorem trim_head (t : JSString) :
    ∀ x, (trim t).head? = some x → isWhiteSpace x = false := by
  intro x hx
  obtain ⟨tail, _, e⟩ := trim_decomp t
  have h1 : (t.dropWhile isWhiteSpace).head? = some x := by
    rw [e]
    cases hh : trim t with
    | nil => rw [hh] at hx; simp at hx
    | cons a l => rw [hh] at hx; simpa using hx
  have := List.head?_dropWhile_not isWhiteSpace t
  rw [h1] at this
  exact this

theorem split_trim_ne_nil (t : JSString) (h : trim t ≠ []) :
    ∀ tok ∈ split (trim t), tok ≠ [] :=
  splitGo_ne_nil (trim t) false [] (fun h0 => absurd h0 h) (trim_getLast t)
    (fun _ _ => trim_head t)

theorem countWords_eq (t : JSString) : countWords t = numRuns t := by
  unfold countWords
  by_cases h : t = [] ∨ trim t = []
  · rw [if_pos h, ← numRuns_trim]
    rcases h with h | h
    · subst h; rfl
    · rw [h]; rfl
  · rw [if_neg h, split, length_filter_splitGo _ false [] (fun h => by simp at h),
      ← numRuns_trim t]
    simp [numRuns]

/-! ## The claim about `countWords` -/

/-- Claim C9: for every text `t`, `countWords(t)` is the number of maximal
runs of non-whitespace characters of `t`: 0 for an empty or whitespace-only
text, punctuation-only tokens count like any other
(`countWords("uno dos tres")` and `countWords("hola , mundo")` are 3), and
the final `length > 0` filter never removes a token. -/
theorem countWords_counts_runs (t : JSString) :
    countWords t = numRuns t ∧
      ((∀ c ∈ t, isWhiteSpace c = true) → countWords t = 0) ∧
      (trim t ≠ [] →
        (split (trim t)).filter (fun w => decide (w.length > 0)) = split (trim t)) ∧
      countWords [] = 0 ∧ countWords (utf16 "uno dos tres") = 3 ∧
      countWords (utf16 "hola , mundo") = 3 := by
  refine ⟨countWords_eq t, ?_, ?_, by decide, by decide, by decide⟩
  · intro h
    rw [countWords_eq]
    exact runStarts_all_ws t h true
  · intro h
    apply List.filter_eq_self.2
    intro tok htok
    have := split_trim_ne_nil t h tok htok
    simpa using List.length_pos.2 this

/-- Claim C9 at a whitespace-only text and at "hola , mundo". -/
theorem countWords_counts_runs_witness :
    countWords (utf16 " \t ") = 0 ∧
      (split (trim (utf16 "hola , mundo"))).filter (fun w => decide (w.length > 0)) =
        split (trim (utf16 "hola , mundo")) ∧
      countWords (utf16 "hola , mundo") = numRuns (utf16 "hola , mundo") :=
  ⟨(countWords_counts_runs (utf16 " \t ")).2.1 (by decide),
    (countWords_counts_runs (utf16 "hola , mundo")).2.2.1 (by decide),
    (countWords_counts_runs (utf16 "hola , mundo")).1⟩

/-! ## The claim about `verseName` -/

theorem fallbackName_has_space (m : Int) : ' ' ∈ (fallbackName m).data := by
  unfold fallbackName
  rw [String.data_append]
  exact List.mem_append_right _ (by decide)

/-- Claim C10: for every integer `n` with `1 <= n <= 14`, `verseName(n)` is
the term the table holds for `n` and never a string of the form
"<m> sílabas"; `verseName` gives Monosílabo, Heptasílabo, Octosílabo,
Endecasílabo and Alejandrino at 1, 7, 8, 11 and 14, and every poem-structure
hint that names a metre with its count uses the name `verseName` returns. -/
theorem verseName_in_table (n : Int) (h1 : 1 ≤ n) (h2 : n ≤ 14) :
    names.lookup n = some (verseName n) ∧
      (∀ m : Int, verseName n ≠ fallbackName m) ∧
      verseName 1 = "Monosílabo" ∧ verseName 7 = "Heptasílabo" ∧
      verseName 8 = "Octosílabo" ∧ verseName 11 = "Endecasílabo" ∧
      verseName 14 = "Alejandrino" ∧
      [1, 2, 3, 4, 5, 6, 7, 8, 9, 10, 11, 12, 13, 14].map verseName =
        ["Monosílabo", "Bisílabo", "Trisílabo", "Tetrasílabo", "Pentasílabo",
          "Hexasílabo", "Heptasílabo", "Octosílabo", "Eneasílabo", "Decasílabo",
          "Endecasílabo", "Dodecasílabo", "Tridecasílabo", "Alejandrino"] ∧
      (∀ p ∈ metreHints, hintMatches p = true) := by
  have key : names.lookup n = some (verseName n) ∧ ' ' ∉ (verseName n).data := by
    interval_cases n <;> decide
  refine ⟨key.1, ?_, by decide, by decide, by decide, by decide, by decide, by decide,
    by decide⟩
  intro m hm
  apply key.2
  rw [hm]
  exact fallbackName_has_space m

/-- Claim C10 at 11. -/
theorem verseName_in_table_witness :
    names.lookup 11 = some (verseName 11) ∧ verseName 11 ≠ fallbackName 11 :=
  have h := verseName_in_table 11 (by decide) (by decide)
  ⟨h.1, h.2.1 11⟩
/-! ## `verseName` outside the table -/

theorem names_lookup_none (n : Int) (h : n < 1 ∨ 14 < n) : names.lookup n = none := by
  have h1 : (n == 1) = false := by simp; omega
  have h2 : (n == 2) = false := by simp; omega
  have h3 : (n == 3) = false := by simp; omega
  have h4 : (n == 4) = false := by simp; omega
  have h5 : (n == 5) = false := by simp; omega
  have h6 : (n == 6) = false := by simp; omega
  have h7 : (n == 7) = false := by simp; omega
  have h8 : (n == 8) = false := by simp; omega
  have h9 : (n == 9) = false := by simp; omega
  have h10 : (n == 10) = false := by simp; omega
  have h11 : (n == 11) = false := by simp; omega
  have h12 : (n == 12) = false := by simp; omega
  have h13 : (n == 13) = false := by simp; omega
  have h14 : (n == 14) = false := by simp; omega
  simp only [names, List.lookup, h1, h2, h3, h4, h5, h6, h7, h8, h9, h10, h11, h12, h13, h14]

theorem bitLengthAux_le (fuel : Nat) :
    ∀ (a k : Nat), a < 2 ^ k → bitLengthAux fuel a ≤ k := by
  induction fuel with
  | zero => intro a k _; exact Nat.zero_le _
  | succ fuel ih =>
    intro a k h
    unfold bitLengthAux
    by_cases h0 : a = 0
    · rw [if_pos h0]; exact Nat.zero_le _
    · rw [if_neg h0]
      cases k with
      | zero => simp at h; exact absurd h h0
      | succ k =>
        have h2 : a / 2 < 2 ^ k := by
          rw [Nat.pow_succ] at h
          omega
        have := ih (a / 2) k h2
        omega

theorem roundNat_of_lt (a : Nat) (h : a < 2 ^ 53) : roundNat a = some a := by
  have he : bitLength a - 53 = 0 := by
    have := bitLengthAux_le a a 53 h
    unfold bitLength
    omega
  simp [roundNat, he, Nat.mod_one]

theorem roundNat_of_le (a : Nat) (h : a ≤ 2 ^ 53) : roundNat a = some a := by
  by_cases h2 : a < 2 ^ 53
  · exact roundNat_of_lt a h2
  · have e : a = 2 ^ 53 := by omega
    rw [e]
    decide

/-- An integer up to 2^53 in absolute value is a Number. -/
theorem toNumber_of_safe (n : Int) (h : n.natAbs ≤ 2 ^ 53) :
    toNumber n = JSNumber.finite n := by
  have e : (if n < 0 then -((n.natAbs : Nat) : Int) else ((n.natAbs : Nat) : Int)) = n := by
    split <;> omega
  unfold toNumber
  rw [roundNat_of_le _ h]
  simp only [e]

/-- An integer up to 2^53 in absolute value prints its decimal digits. -/
theorem fallbackName_of_safe (n : Int) (h : n.natAbs ≤ 2 ^ 53) :
    fallbackName n = toString n ++ " sílabas" := by
  unfold fallbackName
  rw [toNumber_of_safe n h]
  simp only [numberToString, h, if_true]

theorem verseName_of_safe (n : Int) (h : n.natAbs ≤ 2 ^ 53) :
    verseName n =
      match names.lookup n with
      | some s => if s = "" then fallbackName n else s
      | none => fallbackName n := by
  unfold verseName
  rw [toNumber_of_safe n h]
  rfl

theorem bitLengthAux_zero (fuel : Nat) : bitLengthAux fuel 0 = 0 := by
  cases fuel <;> simp [bitLengthAux]

/-- The fuel of `bitLength` is enough: `bitLength a` is the number of binary
digits of `a`. -/
theorem bitLengthAux_spec (fuel : Nat) :
    ∀ a : Nat, a ≤ fuel →
      a < 2 ^ bitLengthAux fuel a ∧ (a ≠ 0 → 2 ^ (bitLengthAux fuel a - 1) ≤ a) := by
  induction fuel with
  | zero =>
    intro a h
    have : a = 0 := by omega
    subst this
    simp [bitLengthAux]
  | succ fuel ih =>
    intro a h
    unfold bitLengthAux
    by_cases h0 : a = 0
    · subst h0; simp
    · rw [if_neg h0]
      have hle : a / 2 ≤ fuel := by omega
      obtain ⟨h1, h2⟩ := ih (a / 2) hle
      refine ⟨?_, fun _ => ?_⟩
      · rw [Nat.pow_succ]; omega
      · simp only [Nat.add_sub_cancel]
        by_cases hh : a / 2 = 0
        · rw [hh, bitLengthAux_zero]
          simp
          omega
        · have h3 := h2 hh
          have hpos : 1 ≤ bitLengthAux fuel (a / 2) := by
            by_contra hc
            have hz : bitLengthAux fuel (a / 2) = 0 := by omega
            rw [hz] at h1
            simp at h1
            exact hh h1
          obtain ⟨k, hk⟩ : ∃ k, bitLengthAux fuel (a / 2) = k + 1 := ⟨_, (Nat.sub_add_cancel hpos).symm⟩
          rw [hk] at h3 ⊢
          simp only [Nat.add_sub_cancel] at h3
          rw [Nat.pow_succ]
          omega

theorem bitLength_spec (a : Nat) (h : a ≠ 0) :
    2 ^ (bitLength a - 1) ≤ a ∧ a < 2 ^ bitLength a :=
  ⟨(bitLengthAux_spec a a (le_refl a)).2 h, (bitLengthAux_spec a a (le_refl a)).1⟩

set_option maxRecDepth 100000 in
/-- Conversion and printing at some integers above 2^53, and the shortest
digits at some integers below it, where they are the decimal digits. -/
theorem numberToString_samples :
    toNumber (2 ^ 53 + 1) = JSNumber.finite (2 ^ 53) ∧
      toNumber (2 ^ 53 + 3) = JSNumber.finite (2 ^ 53 + 4) ∧
      numberToString (toNumber (2 ^ 70)) = "1.1805916207174113e+21" ∧
      numberToString (toNumber (-(2 ^ 64))) = "-18446744073709552000" ∧
      numberToString (toNumber (10 ^ 23)) = "1e+23" ∧
      numberToString (toNumber (10 ^ 155 * 10 ^ 155)) = "Infinity" ∧
      printShortest 20 = "20" ∧ printShortest 1000 = "1000" ∧
      printShortest (2 ^ 53) = "9007199254740992" := by
  decide

/-- Claim C11, as stated, fails: the integer 2^64 reaches the code as a
double, whose text is "18446744073709552000", not the decimal rendering
"18446744073709551616" of 2^64; 10^21 prints in exponent form. -/
theorem verseName_large_not_decimal :
    verseName (2 ^ 64) = "18446744073709552000 sílabas" ∧
      toString ((2 : Int) ^ 64) ++ " sílabas" = "18446744073709551616 sílabas" ∧
      verseName (2 ^ 64) ≠ toString ((2 : Int) ^ 64) ++ " sílabas" ∧
      verseName (10 ^ 21) = "1e+21 sílabas" := by
  decide

/-- Claim C11, amended: for every integer `n` outside `[1,14]` (0, a
negative integer, an integer above 14) with `|n| <= 2^53`, `verseName(n)` is
the decimal rendering of `n` followed by " sílabas"; `verseName(20)`,
`verseName(0)` and `verseName(-3)` are "20 sílabas", "0 sílabas" and
"-3 sílabas". -/
theorem verseName_fallback (n : Int) (h : n < 1 ∨ 14 < n)
    (hlo : -(2 : Int) ^ 53 ≤ n) (hhi : n ≤ (2 : Int) ^ 53) :
    verseName n = toString n ++ " sílabas" ∧
      verseName 20 = "20 sílabas" ∧ verseName 0 = "0 sílabas" ∧
      verseName (-3) = "-3 sílabas" := by
  refine ⟨?_, by decide, by decide, by decide⟩
  have hs : n.natAbs ≤ 2 ^ 53 := by omega
  rw [verseName_of_safe n hs, names_lookup_none n h]
  exact fallbackName_of_safe n hs

/-- The amended C11 at 15, at -1 and at 2^53. -/
theorem verseName_fallback_witness :
    verseName 15 = toString (15 : Int) ++ " sílabas" ∧
      verseName (-1) = toString (-1 : Int) ++ " sílabas" ∧
      verseName (2 ^ 53) = toString ((2 : Int) ^ 53) ++ " sílabas" :=
  ⟨(verseName_fallback 15 (by decide) (by decide) (by decide)).1,
    (verseName_fallback (-1) (by decide) (by decide) (by decide)).1,
    (verseName_fallback (2 ^ 53) (by decide) (by decide) (by decide)).1⟩

/-! ## Termination and range safety of the loop -/

theorem loopStep_bounds (word : JSString) (i count i2 c2 : Nat)
    (h : loopStep word i count = some (i2, c2)) :
    i < word.length ∧ (i2 = i + 1 ∨ i2 = i + 2) ∧ i2 ≤ word.length ∧
      (c2 = count ∨ c2 = count + 1) := by
  unfold loopStep at h
  split at h
  · rename_i hi
    refine ⟨hi, ?_⟩
    split at h
    · split at h
      · split at h <;>
          (simp only [Option.some.injEq, Prod.mk.injEq] at h; omega)
      · simp only [Option.some.injEq, Prod.mk.injEq] at h; omega
    · simp only [Option.some.injEq, Prod.mk.injEq] at h; omega
  · simp at h

theorem countLoop_step (word : JSString) (i count : Nat) :
    countLoop word i count =
      match loopStep word i count with
      | some (i2, c2) => countLoop word i2 c2
      | none => count := by
  rw [countLoop]
  unfold loopStep
  split
  · split
    · split
      · split <;> rfl
      · rfl
    · rfl
  · rfl

theorem runLoop_eq (word : JSString) :
    ∀ (fuel i count : Nat), word.length - i < fuel →
      runLoop fuel word i count = Except.ok (countLoop word i count) := by
  intro fuel
  induction fuel with
  | zero =>
    intro i count h
    omega
  | succ fuel ih =>
    intro i count h
    rw [countLoop]
    unfold runLoop
    by_cases hi : i < word.length
    · simp only [hi, if_true, dite_true, List.getElem?_eq_getElem]
      by_cases hv : isVowel word[i] = true
      · simp only [hv, if_true]
        by_cases h1 : i + 1 < word.length
        · simp only [h1, if_true, dite_true, List.getElem?_eq_getElem]
          split
          · exact ih _ _ (by omega)
          · exact ih _ _ (by omega)
        · simp only [h1, if_false, dite_false]
          exact ih _ _ (by omega)
      · simp only [hv, if_false]
        exact ih _ _ (by omega)
    · simp [hi]

theorem countWordChecked_eq (P : Platform) (w : JSString) :
    countWordChecked P w = Except.ok (countWord P w) := by
  unfold countWordChecked countWord
  by_cases h : w = []
  · simp [h]
  · rw [if_neg h, if_neg h, runLoop_eq _ _ 0 0 (by omega)]
    rfl

theorem addWordChecked_eq (P : Platform) (sum : Nat) (w : JSString) :
    addWordChecked P sum w = Except.ok (addWord P sum w) := by
  unfold addWordChecked addWord
  by_cases h : clean w = []
  · simp [h]
  · simp only [ne_eq, h, not_false_eq_true, if_true, countWordChecked_eq]
    rfl

theorem foldlM_addWordChecked (P : Platform) (l : List JSString) (a : Nat) :
    l.foldlM (addWordChecked P) a = Except.ok (l.foldl (addWord P) a) := by
  induction l generalizing a with
  | nil => rfl
  | cons w l ih =>
    rw [List.foldlM_cons, addWordChecked_eq, List.foldl_cons, ← ih]
    rfl

theorem countTextChecked_eq (P : Platform) (t : JSString) :
    countTextChecked P t = Except.ok (countText P t) := by
  unfold countTextChecked countText
  by_cases h : t = [] ∨ trim t = []
  · rw [if_pos h, if_pos h]
  · rw [if_neg h, if_neg h, foldlM_addWordChecked]

/-- Claim C12: every operation of the engine is total. Run with checked
reads and a bound on the iterations, `countWord` and `countText` return the
value of the source functions and never a fault; the loop of `countWord`
ends within `word.length` iterations because each iteration moves the index
by 1 or 2 and keeps it at most `word.length`, and its look-ahead at `i + 1`
is never out of range; `countWords` and `verseName` have a value on every
input. -/
theorem engine_total (P : Platform) (w t : JSString) (n : Int) :
    countWordChecked P w = Except.ok (countWord P w) ∧
      countTextChecked P t = Except.ok (countText P t) ∧
      (∀ (fuel : Nat) (word : JSString), word.length < fuel →
        runLoop fuel word 0 0 = Except.ok (countLoop word 0 0)) ∧
      (∀ (word : JSString) (i count i2 c2 : Nat), loopStep word i count = some (i2, c2) →
        i < word.length ∧ (i2 = i + 1 ∨ i2 = i + 2) ∧ i2 ≤ word.length) ∧
      (∀ (word : JSString) (i count : Nat),
        countLoop word i count =
          match loopStep word i count with
          | some (i2, c2) => countLoop word i2 c2
          | none => count) ∧
      (∃ k : Nat, countWords t = k) ∧ (∃ s : String, verseName n = s) := by
  refine ⟨countWordChecked_eq P w, countTextChecked_eq P t, ?_, ?_, countLoop_step,
    ⟨_, rfl⟩, ⟨_, rfl⟩⟩
  · intro fuel word h
    exact runLoop_eq word fuel 0 0 (by omega)
  · intro word i count i2 c2 h
    have := loopStep_bounds word i count i2 c2 h
    exact ⟨this.1, this.2.1, this.2.2.1⟩

/-- Claim C12 at the word "poesía": seven iterations are enough, and the
first iteration moves the index from 0 to 1. -/
theorem engine_total_witness :
    runLoop 7 (utf16 "poesía") 0 0 = Except.ok (countLoop (utf16 "poesía") 0 0) ∧
      (0 < (utf16 "poesía").length ∧ ((1 : Nat) = 0 + 1 ∨ (1 : Nat) = 0 + 2) ∧
        1 ≤ (utf16 "poesía").length) :=
  have h := engine_total Platform.latin1 (utf16 "poesía") (utf16 "poesía") 0
  ⟨h.2.2.1 7 (utf16 "poesía") (by decide),
    h.2.2.2.1 (utf16 "poesía") 0 0 1 0 (by decide)⟩

/-! ## Case -/

set_option maxRecDepth 100000 in
theorem toUpperSpanish_facts (c : Nat) (h : isSpanishLetter c = true) :
    toUpperSpanish c < 0x100 ∧ isSpanishLetter (toUpperSpanish c) = true ∧
      isLowerSpanishLetter (toUpperSpanish c) = false ∧
      toLowerLatin1 (toUpperSpanish c) = toLowerLatin1 c ∧
      toLowerLatin1 (toLowerLatin1 c) = toLowerLatin1 c ∧
      isLowerSpanishLetter (toLowerLatin1 c) = true := by
  have key : ∀ c, c < 0x100 → isSpanishLetter c = true →
      toUpperSpanish c < 0x100 ∧ isSpanishLetter (toUpperSpanish c) = true ∧
      isLowerSpanishLetter (toUpperSpanish c) = false ∧
      toLowerLatin1 (toUpperSpanish c) = toLowerLatin1 c ∧
      toLowerLatin1 (toLowerLatin1 c) = toLowerLatin1 c ∧
      isLowerSpanishLetter (toLowerLatin1 c) = true := by decide
  exact key c (isSpanishLetter_lt c h) h

/-- Claim C13: `countWord` is case-insensitive: for every word `w` of
Spanish letters, `countWord` of `w` in uppercase is `countWord` of `w` in
lowercase (and of `w` itself); `countWord("HOLA")` and `countWord("hola")`
are both 2. -/
theorem countWord_case_insensitive (P : Platform) (hP : P.Latin1) (w : JSString)
    (hw : ∀ c ∈ w, isSpanishLetter c = true) :
    countWord P (w.map toUpperSpanish) = countWord P (w.map toLowerLatin1) ∧
      countWord P (w.map toUpperSpanish) = countWord P w ∧
      (utf16 "hola").map toUpperSpanish = utf16 "HOLA" ∧
      (utf16 "HOLA").map toLowerLatin1 = utf16 "hola" ∧
      countWord P (utf16 "HOLA") = 2 ∧ countWord P (utf16 "hola") = 2 := by
  have hu : ∀ c ∈ w.map toUpperSpanish, c < 0x100 := by
    intro c hc
    obtain ⟨d, hd, rfl⟩ := List.mem_map.1 hc
    exact (toUpperSpanish_facts d (hw d hd)).1
  have hl : ∀ c ∈ w.map toLowerLatin1, c < 0x100 := by
    intro c hc
    obtain ⟨d, hd, rfl⟩ := List.mem_map.1 hc
    exact toLowerLatin1_lt d (isSpanishLetter_lt d (hw d hd))
  have h0 : ∀ c ∈ w, c < 0x100 := fun c hc => isSpanishLetter_lt c (hw c hc)
  have e1 : (w.map toUpperSpanish).map toLowerLatin1 = w.map toLowerLatin1 := by
    rw [List.map_map]
    apply List.map_congr_left
    intro c hc
    exact (toUpperSpanish_facts c (hw c hc)).2.2.2.1
  have e2 : (w.map toLowerLatin1).map toLowerLatin1 = w.map toLowerLatin1 := by
    rw [List.map_map]
    apply List.map_congr_left
    intro c hc
    exact (toUpperSpanish_facts c (hw c hc)).2.2.2.2.1
  refine ⟨?_, ?_, by decide, by decide, ?_, ?_⟩
  · rw [countWord_eq_wordScore P hP _ hu, countWord_eq_wordScore P hP _ hl]
    unfold wordScore
    rw [e1, e2]
    simp
  · rw [countWord_eq_wordScore P hP _ hu, countWord_eq_wordScore P hP _ h0]
    unfold wordScore
    rw [e1]
    simp
  · rw [countWord_eq_wordScore P hP _ (by decide)]
    decide
  · rw [countWord_eq_wordScore P hP _ (by decide)]
    decide

/-- Claim C13 at the word "Poesía". -/
theorem countWord_case_insensitive_witness :
    countWord Platform.latin1 ((utf16 "Poesía").map toUpperSpanish) =
        countWord Platform.latin1 ((utf16 "Poesía").map toLowerLatin1) ∧
      countWord Platform.latin1 (utf16 "HOLA") = 2 :=
  have h := countWord_case_insensitive Platform.latin1 Platform.latin1_conforms
    (utf16 "Poesía") (by decide)
  ⟨h.1, h.2.2.2.2.1⟩

/-! ## Accents -/

theorem composePair_none_of_lt (b m : Nat) (h : m < 0x100) : composePair b m = none := by
  unfold composePair
  have h1 : m ≠ 0x301 := by omega
  have h2 : m ≠ 0x308 := by omega
  simp [h1, h2]

theorem recompose_of_lt (w : JSString) (h : ∀ c ∈ w, c < 0x100) : recompose w = w := by
  induction w with
  | nil => rfl
  | cons b rest ih =>
    cases rest with
    | nil => rfl
    | cons m rest2 =>
      have hm : m < 0x100 := h m (by simp)
      have ih2 := ih (fun c hc => h c (List.mem_cons_of_mem _ hc))
      simp only [recompose, composePair_none_of_lt b m hm, ih2]

theorem Platform.spanish_latin1 : Platform.spanish.Latin1 := by
  intro w hw
  exact ⟨rfl, recompose_of_lt w hw⟩

theorem Platform.spanish_recomposes : Platform.spanish.Recomposes := by
  intro w _
  exact ⟨rfl, rfl⟩

set_option maxRecDepth 100000 in
/-- The lowercase decomposed form of one letter: either the lowercase letter
itself, or a base and a mark that compose to the lowercase letter. -/
theorem decomposeUnit_cases (c : Nat) (h : isSpanishLetter c = true) :
    ((decomposeUnit c).map toLowerLatin1 = [toLowerLatin1 c]) ∨
      (∃ b m, (decomposeUnit c).map toLowerLatin1 = [b, m] ∧ b < 0x100 ∧
        composePair b m = some (toLowerLatin1 c)) := by
  have key : ∀ c, c < 0x100 → isSpanishLetter c = true →
      ((decomposeUnit c).map toLowerLatin1 = [toLowerLatin1 c]) ∨
        ((decomposeUnit c).map toLowerLatin1 =
            [((decomposeUnit c).map toLowerLatin1).getD 0 0,
              ((decomposeUnit c).map toLowerLatin1).getD 1 0] ∧
          ((decomposeUnit c).map toLowerLatin1).getD 0 0 < 0x100 ∧
          composePair (((decomposeUnit c).map toLowerLatin1).getD 0 0)
            (((decomposeUnit c).map toLowerLatin1).getD 1 0) = some (toLowerLatin1 c)) := by
    decide
  rcases key c (isSpanishLetter_lt c h) h with h1 | h2
  · exact Or.inl h1
  · exact Or.inr ⟨_, _, h2.1, h2.2.1, h2.2.2⟩

/-- The first unit of a lowercase decomposed word is below U+0100: it is a
letter, not a combining mark. -/
theorem head_decompose_lt (w : JSString) (hw : ∀ c ∈ w, isSpanishLetter c = true) :
    ∀ d, ((decompose w).map toLowerLatin1).head? = some d → d < 0x100 := by
  intro d hd
  cases w with
  | nil => simp [decompose] at hd
  | cons c rest =>
    have hc := hw c (List.mem_cons_self _ _)
    simp only [decompose, List.map_append] at hd
    rcases decomposeUnit_cases c hc with h1 | ⟨b, m, h2, hb, _⟩
    · rw [h1] at hd
      simp at hd
      subst hd
      exact toLowerLatin1_lt c (isSpanishLetter_lt c hc)
    · rw [h2] at hd
      simp at hd
      subst hd
      exact hb

theorem recompose_decompose (w : JSString) (hw : ∀ c ∈ w, isSpanishLetter c = true) :
    recompose ((decompose w).map toLowerLatin1) = w.map toLowerLatin1 := by
  induction w with
  | nil => rfl
  | cons c rest ih =>
    have hc := hw c (List.mem_cons_self _ _)
    have hrest : ∀ x ∈ rest, isSpanishLetter x = true :=
      fun x hx => hw x (List.mem_cons_of_mem _ hx)
    have ih2 := ih hrest
    simp only [decompose, List.map_append, List.map_cons]
    rcases decomposeUnit_cases c hc with h1 | ⟨b, m, h2, _, h3⟩
    · rw [h1]
      cases hr : (decompose rest).map toLowerLatin1 with
      | nil =>
        rw [hr] at ih2
        simp only [List.singleton_append, recompose]
        rw [← ih2]
        rfl
      | cons d tail =>
        have hd : d < 0x100 := head_decompose_lt rest hrest d (by rw [hr]; rfl)
        rw [hr] at ih2
        simp only [List.singleton_append, recompose, composePair_none_of_lt _ d hd, ih2]
    · rw [h2]
      simp only [List.cons_append, List.nil_append, recompose, h3, List.append_eq, ih2]

set_option maxRecDepth 100000 in
theorem decomposeUnit_ne_nil (c : Nat) : decomposeUnit c ≠ [] := by
  by_cases h : c < 0x100
  · have key : ∀ c, c < 0x100 → decomposeUnit c ≠ [] := by decide
    exact key c h
  · have e : decomposeUnit c = [c] := by
      unfold decomposeUnit
      rw [if_neg (by omega : ¬ c = 0xE1), if_neg (by omega : ¬ c = 0xE9),
        if_neg (by omega : ¬ c = 0xED), if_neg (by omega : ¬ c = 0xF3),
        if_neg (by omega : ¬ c = 0xFA), if_neg (by omega : ¬ c = 0xFC),
        if_neg (by omega : ¬ c = 0xC1), if_neg (by omega : ¬ c = 0xC9),
        if_neg (by omega : ¬ c = 0xCD), if_neg (by omega : ¬ c = 0xD3),
        if_neg (by omega : ¬ c = 0xDA), if_neg (by omega : ¬ c = 0xDC)]
    rw [e]
    exact List.cons_ne_nil _ _

theorem decompose_eq_nil (w : JSString) : decompose w = [] ↔ w = [] := by
  cases w with
  | nil => simp [decompose]
  | cons c rest => simp [decompose, decomposeUnit_ne_nil]

/-- On a decomposed word a platform that recomposes scans the lowercase
composed word. -/
theorem countWord_decompose (P : Platform) (hR : P.Recomposes) (w : JSString)
    (hw : ∀ c ∈ w, isSpanishLetter c = true) :
    countWord P (decompose w) = wordScore w := by
  rw [countWord_eq_scan, (hR w hw).1, (hR w hw).2, recompose_decompose w hw]
  unfold wordScore
  by_cases h : w = []
  · subst h; rfl
  · have h2 : decompose w ≠ [] := fun h3 => h ((decompose_eq_nil w).1 h3)
    rw [if_neg h, if_neg h2]

/-- Claim C14: `countWord` recomposes decomposed accents before scanning:
for every word `w` of Spanish letters, `countWord` of the decomposed form of
`w` (each accented vowel written as its base vowel followed by U+0301 or
U+0308) is `countWord` of the composed form `w`. -/
theorem countWord_recomposes (P : Platform) (hP : P.Latin1) (hR : P.Recomposes)
    (w : JSString) (hw : ∀ c ∈ w, isSpanishLetter c = true) :
    countWord P (decompose w) = countWord P w ∧
      decompose (utf16 "sílabas") = [0x73, 0x69, 0x301, 0x6C, 0x61, 0x62, 0x61, 0x73] ∧
      countWord P (decompose (utf16 "sílabas")) = 3 ∧
      countWord P (decompose (utf16 "PINGÜINO")) = 3 := by
  have gen : ∀ w : JSString, (∀ c ∈ w, isSpanishLetter c = true) →
      countWord P (decompose w) = countWord P w := by
    intro w hw
    rw [countWord_decompose P hR w hw,
      countWord_eq_wordScore P hP w (fun c hc => isSpanishLetter_lt c (hw c hc))]
  refine ⟨gen w hw, by decide, ?_, ?_⟩
  · rw [countWord_decompose P hR _ (by decide)]
    decide
  · rw [countWord_decompose P hR _ (by decide)]
    decide

/-- Claim C14 at the word "poesía". -/
theorem countWord_recomposes_witness :
    countWord Platform.spanish (decompose (utf16 "poesía")) =
        countWord Platform.spanish (utf16 "poesía") ∧
      countWord Platform.spanish (decompose (utf16 "sílabas")) = 3 :=
  have h := countWord_recomposes Platform.spanish Platform.spanish_latin1
    Platform.spanish_recomposes (utf16 "poesía") (by decide)
  ⟨h.1, h.2.2.1⟩

/-! ## The interface of the module -/

/-- The source of `countText` as a sum over the pieces of the trimmed text. -/
theorem countText_eq_sum (P : Platform) (t : JSString) :
    countText P t = ((split (trim t)).map (fun tok => wordValue P (clean tok))).sum := by
  unfold countText
  by_cases h : t = [] ∨ trim t = []
  · have ht : trim t = [] := by
      rcases h with h | h
      · subst h; rfl
      · exact h
    rw [if_pos h, ht]
    rfl
  · rw [if_neg h, foldl_addWord, Nat.zero_add]

/-- Claim C15, as stated, fails: the module object has three properties and
`countWord` is not one of them, so `Syllables.countWord` is `undefined` for
an external consumer. -/
theorem countWord_not_exported :
    Syllables.lookup "countWord" = none ∧ Syllables.length = 3 ∧
      Syllables.map Prod.fst ≠ ["countWord", "countText", "countWords", "verseName"] := by
  decide

/-- Claim C15, amended: the public interface of the `Syllables` module
consists of exactly three operations, `countText`, `verseName` and
`countWords`, each declared in the module and each callable by an external
consumer (every call of `app.js` names one of them); `countWord` is
declared in the module but not returned, and is applied by `countText` to
each cleaned token. -/
theorem Syllables_interface (P : Platform) :
    Syllables.map Prod.fst = ["countText", "verseName", "countWords"] ∧
      (∀ p ∈ Syllables, p ∈ declaredFunctions) ∧
      (∀ name ∈ externalCalls, (Syllables.lookup name).isSome = true) ∧
      declaredFunctions.lookup "countWord" = some Operation.countWord ∧
      Syllables.lookup "countWord" = none ∧
      countText P (utf16 "hola") = countWord P (utf16 "hola") := by
  refine ⟨by decide, by decide, by decide, by decide, by decide, ?_⟩
  rw [countText_eq_sum]
  have e : split (trim (utf16 "hola")) = [utf16 "hola"] := by decide
  have e2 : clean (utf16 "hola") = utf16 "hola" := by decide
  rw [e]
  simp only [List.map_cons, List.map_nil, List.sum_cons, List.sum_nil, e2, Nat.add_zero]
  unfold wordValue
  rw [if_pos (by decide)]

/-- The amended C15 at the returned object. -/
theorem Syllables_interface_witness :
    Syllables.map Prod.fst = ["countText", "verseName", "countWords"] ∧
      countText Platform.latin1 (utf16 "hola") = countWord Platform.latin1 (utf16 "hola") :=
  ⟨(Syllables_interface Platform.latin1).1, (Syllables_interface Platform.latin1).2.2.2.2.2⟩

/-! ## Consonants, vowel runs and vowel counts -/

theorem sameNucleus_isVowel (a b : Nat) (h : sameNucleus a b) : isVowel a = isVowel b := by
  rcases h with h | ⟨h1, h2⟩
  · rw [h]
  · rw [h1, h2]

theorem sameNucleus_pair (a b a2 b2 : Nat) (h : sameNucleus a b) (h2 : sameNucleus a2 b2)
    (ha : isVowel a = true) :
    (isVowel a2 && isDiphthong a a2) = (isVowel b2 && isDiphthong b b2) := by
  have hab : a = b := by
    rcases h with h | ⟨h1, _⟩
    · exact h
    · rw [ha] at h1; cases h1
  subst hab
  rcases h2 with h2 | ⟨h3, h4⟩
  · rw [h2]
  · rw [h3, h4]; rfl

theorem scan_congr : ∀ (s1 s2 : JSString), List.Forall₂ sameNucleus s1 s2 → scan s1 = scan s2
  | [], [], _ => rfl
  | [], _ :: _, h => by cases h
  | _ :: _, [], h => by cases h
  | [a], [b], h => by
    cases h with
    | cons hab _ => simp only [scan, sameNucleus_isVowel a b hab]
  | [_], _ :: _ :: _, h => by
    cases h with
    | cons _ h2 => cases h2
  | _ :: _ :: _, [_], h => by
    cases h with
    | cons _ h2 => cases h2
  | a :: a2 :: r1, b :: b2 :: r2, h => by
    cases h with
    | cons hab h2 =>
      cases h2 with
      | cons hab2 h3 =>
        have ih1 := scan_congr r1 r2 h3
        have ih2 := scan_congr (a2 :: r1) (b2 :: r2) (List.Forall₂.cons hab2 h3)
        have hv := sameNucleus_isVowel a b hab
        simp only [scan]
        by_cases ha : isVowel a = true
        · have hp := sameNucleus_pair a b a2 b2 hab hab2 ha
          rw [← hv, ← hp, ih1, ih2]
        · simp only [Bool.not_eq_true] at ha
          rw [← hv, ha, ih2]
          rfl

set_option maxRecDepth 100000 in
theorem toLowerLatin1_of_lower (c : Nat) (h : isLowerSpanishLetter c = true) :
    toLowerLatin1 c = c ∧ c < 0x100 := by
  have hl : isSpanishLetter c = true := by
    unfold isLowerSpanishLetter at h
    unfold isSpanishLetter
    simp only [Bool.or_eq_true] at h ⊢
    exact Or.inl (Or.inl h)
  have key : ∀ c, c < 0x100 → isLowerSpanishLetter c = true → toLowerLatin1 c = c := by
    decide
  exact ⟨key c (isSpanishLetter_lt c hl) h, isSpanishLetter_lt c hl⟩

theorem countWord_of_lower (P : Platform) (hP : P.Latin1) (w : JSString)
    (hw : ∀ c ∈ w, isLowerSpanishLetter c = true) :
    countWord P w = if w = [] then 0 else max 1 (scan w) := by
  rw [countWord_eq_wordScore P hP w (fun c hc => (toLowerLatin1_of_lower c (hw c hc)).2)]
  unfold wordScore
  have e : w.map toLowerLatin1 = w := by
    conv_rhs => rw [← List.map_id w]
    apply List.map_congr_left
    intro c hc
    exact (toLowerLatin1_of_lower c (hw c hc)).1
  rw [e]

/-- Claim C16: non-vowel characters do not affect the count: two words of
equal length over lowercase Spanish letters that carry the same vowel at
every vowel position and consonants at every other position have the same
`countWord`. -/
theorem countWord_ignores_consonants (P : Platform) (hP : P.Latin1) (w1 w2 : JSString)
    (h1 : ∀ c ∈ w1, isLowerSpanishLetter c = true)
    (h2 : ∀ c ∈ w2, isLowerSpanishLetter c = true)
    (hlen : w1.length = w2.length)
    (h : ∀ (i : Nat) (hi1 : i < w1.length) (hi2 : i < w2.length),
      w1[i] = w2[i] ∨ (isVowel w1[i] = false ∧ isVowel w2[i] = false)) :
    countWord P w1 = countWord P w2 := by
  have hf : List.Forall₂ sameNucleus w1 w2 := by
    rw [List.forall₂_iff_get]
    refine ⟨hlen, ?_⟩
    intro i hi1 hi2
    exact h i hi1 hi2
  rw [countWord_of_lower P hP w1 h1, countWord_of_lower P hP w2 h2, scan_congr w1 w2 hf]
  by_cases e : w1 = []
  · subst e
    have : w2 = [] := List.length_eq_zero.1 hlen.symm
    subst this
    rfl
  · have e2 : w2 ≠ [] := by
      intro h0
      subst h0
      exact e (List.length_eq_zero.1 hlen)
    rw [if_neg e, if_neg e2]

/-- Claim C16 at casa / pala and at cielo / miedo. -/
theorem countWord_ignores_consonants_witness :
    countWord Platform.latin1 (utf16 "casa") = countWord Platform.latin1 (utf16 "pala") ∧
      countWord Platform.latin1 (utf16 "cielo") = countWord Platform.latin1 (utf16 "miedo") :=
  ⟨countWord_ignores_consonants Platform.latin1 Platform.latin1_conforms
      (utf16 "casa") (utf16 "pala") (by decide) (by decide) (by decide) (by decide),
    countWord_ignores_consonants Platform.latin1 Platform.latin1_conforms
      (utf16 "cielo") (utf16 "miedo") (by decide) (by decide) (by decide) (by decide)⟩

set_option maxRecDepth 100000 in
theorem isVowel_lower (c : Nat) (h : isVowel c = true) :
    c < 0x100 ∧ isVowel (toLowerLatin1 c) = true := by
  have key : ∀ c ∈ VOWELS, c < 0x100 ∧ isVowel (toLowerLatin1 c) = true := by decide
  exact key c (by simpa [isVowel] using h)

theorem isDiphthong_lower (a b : Nat) (h : isDiphthong a b = true) :
    (a < 0x100 ∧ toLowerLatin1 a = a) ∧ (b < 0x100 ∧ toLowerLatin1 b = b) := by
  have hd : ∀ x ∈ DIPHTHONGS,
      (x.getD 0 0 < 0x100 ∧ toLowerLatin1 (x.getD 0 0) = x.getD 0 0) ∧
        (x.getD 1 0 < 0x100 ∧ toLowerLatin1 (x.getD 1 0) = x.getD 1 0) := by decide
  have hm : [a, b] ∈ DIPHTHONGS := by simpa [isDiphthong] using h
  simpa using hd _ hm

/-- Claim C17: vowel runs are paired greedily from the left and triphthongs
are not recognised: for every three vowels `a`, `b`, `c` such that `ab` is a
member of the diphthong table, `countWord` of the word `abc` is 2, whether
or not `bc` is a member too (in "uai" both "ua" and "ai" are);
`countWord("miau")` is 2. -/
theorem countWord_vowel_triple (P : Platform) (hP : P.Latin1) (a b c : Nat)
    (hab : isDiphthong a b = true) (hc : isVowel c = true) :
    countWord P [a, b, c] = 2 ∧ countWord P (utf16 "miau") = 2 ∧
      isDiphthong 0x75 0x61 = true ∧ isDiphthong 0x61 0x69 = true ∧
      countWord P (utf16 "uai") = 2 := by
  have gen : ∀ a b c : Nat, isDiphthong a b = true → isVowel c = true →
      countWord P [a, b, c] = 2 := by
    intro a b c hab hc
    obtain ⟨⟨ha1, ha2⟩, hb1, hb2⟩ := isDiphthong_lower a b hab
    obtain ⟨hc1, hc2⟩ := isVowel_lower c hc
    obtain ⟨hva, hvb⟩ := isDiphthong_vowels a b hab
    rw [countWord_eq_wordScore P hP _ (by simp [ha1, hb1, hc1])]
    simp [wordScore, scan, ha2, hb2, hva, hvb, hab, hc2]
  refine ⟨gen a b c hab hc, ?_, by decide, by decide, gen _ _ _ (by decide) (by decide)⟩
  rw [countWord_eq_wordScore P hP _ (by decide)]
  decide

/-- Claim C17 at the word "iai". -/
theorem countWord_vowel_triple_witness :
    countWord Platform.latin1 (utf16 "iai") = 2 ∧
      countWord Platform.latin1 (utf16 "miau") = 2 :=
  have h := countWord_vowel_triple Platform.latin1 Platform.latin1_conforms 0x69 0x61 0x69
    (by decide) (by decide)
  ⟨h.1, h.2.1⟩

theorem scan_vowelCount : ∀ s : JSString, scan s ≤ vowelCount s ∧ vowelCount s ≤ 2 * scan s
  | [] => by simp [scan, vowelCount]
  | [c] => by
    by_cases hc : isVowel c = true
    · simp [scan, vowelCount, hc]
    · simp [scan, vowelCount, hc]
  | c :: d :: rest => by
    have ih1 := scan_vowelCount rest
    have ih2 := scan_vowelCount (d :: rest)
    unfold vowelCount at ih1 ih2 ⊢
    by_cases hc : isVowel c = true
    · by_cases hd : isVowel d = true
      · by_cases hx : isDiphthong c d = true
        · simp only [scan, hc, hd, hx, Bool.and_self, if_true, List.filter_cons,
            List.length_cons]
          omega
        · simp only [Bool.not_eq_true] at hx
          simp only [scan, hc, hd, hx, Bool.and_false, if_true, List.filter_cons,
            List.length_cons, Bool.false_eq_true, if_false] at ih2 ⊢
          omega
      · simp only [Bool.not_eq_true] at hd
        simp only [scan, hc, hd, Bool.false_and, if_true, List.filter_cons,
          List.length_cons, Bool.false_eq_true, if_false] at ih2 ⊢
        omega
    · simp only [Bool.not_eq_true] at hc
      simp only [scan, hc, List.filter_cons, Bool.false_eq_true, if_false] at ih2 ⊢
      omega

/-- Claim C18: for every non-empty word `w` whose lowercased, NFC-normalised
form contains `V` vowel characters, `countWord(w) <= max(1, V)` and
`V <= 2 * countWord(w)`. -/
theorem countWord_vowel_bounds (P : Platform) (w : JSString) (hw : w ≠ []) :
    countWord P w ≤ max 1 (vowelCount (P.normalize (P.toLowerCase w))) ∧
      vowelCount (P.normalize (P.toLowerCase w)) ≤ 2 * countWord P w := by
  rw [countWord_eq_scan, if_neg hw]
  have h := scan_vowelCount (P.normalize (P.toLowerCase w))
  constructor
  · exact max_le_max (le_refl 1) h.1
  · have := le_max_right 1 (scan (P.normalize (P.toLowerCase w)))
    omega

/-- Claim C18 at the word "miau". -/
theorem countWord_vowel_bounds_witness :
    countWord Platform.latin1 (utf16 "miau") ≤
        max 1 (vowelCount (Platform.latin1.normalize
          (Platform.latin1.toLowerCase (utf16 "miau")))) ∧
      vowelCount (Platform.latin1.normalize (Platform.latin1.toLowerCase (utf16 "miau"))) ≤
        2 * countWord Platform.latin1 (utf16 "miau") :=
  countWord_vowel_bounds Platform.latin1 (utf16 "miau") (by decide)

/-! ## `countText` against concatenation and against `countWords` -/

theorem textPass_append_sep (v : JSString → Nat) (sep : Nat) (hs : isWhiteSpace sep = true)
    (a b : JSString) : ∀ cur : JSString,
      textPass v cur (a ++ sep :: b) = textPass v cur a + textPass v [] b := by
  induction a with
  | nil => intro cur; simp [textPass, hs]
  | cons c rest ih =>
    intro cur
    by_cases hc : isWhiteSpace c = true
    · simp only [List.cons_append, textPass, hc, if_true, List.append_eq, ih]
      omega
    · simp only [List.cons_append, textPass, hc, List.append_eq, ih]
      simp

/-- Claim C19: `countText` is additive over whitespace concatenation: for
all strings `a` and `b`, `countText(a + " " + b)` is
`countText(a) + countText(b)`. -/
theorem countText_additive (P : Platform) (a b : JSString) :
    countText P (a ++ utf16 " " ++ b) = countText P a + countText P b := by
  have e : a ++ utf16 " " ++ b = a ++ 0x20 :: b := by
    have : utf16 " " = [0x20] := by decide
    rw [this]
    simp
  rw [e, countText_eq_textPass, countText_eq_textPass, countText_eq_textPass,
    textPass_append_sep _ 0x20 (by decide)]

theorem length_filter_le_sum (f : JSString → Nat) (l : List JSString)
    (h : ∀ tok ∈ l.filter (fun w => decide (w.length > 0)), 1 ≤ f tok) :
    (l.filter (fun w => decide (w.length > 0))).length ≤ (l.map f).sum := by
  induction l with
  | nil => simp
  | cons w l ih =>
    by_cases hw : w.length > 0
    · have hmem : w ∈ (w :: l).filter (fun w => decide (w.length > 0)) := by
        simp [List.filter_cons, hw]
      have h1 := h w hmem
      have ih2 := ih (fun tok htok => h tok (by
        simp only [List.filter_cons, hw, decide_True, if_true]
        exact List.mem_cons_of_mem _ htok))
      simp only [List.filter_cons, hw, decide_True, if_true, List.length_cons, List.map_cons,
        List.sum_cons]
      omega
    · have ih2 := ih (fun tok htok => h tok (by
        simp only [List.filter_cons, hw, decide_False]
        exact htok))
      simp only [List.filter_cons, hw, decide_False, List.map_cons, List.sum_cons]
      simp only [Bool.false_eq_true, if_false]
      omega

theorem countWords_le_tokens (t : JSString) : countWords t ≤ (tokens t).length := by
  unfold countWords tokens
  split
  · exact Nat.zero_le _
  · exact le_refl _

/-- Claim C20: for every text `t` in which each whitespace-delimited token
contains at least one Spanish letter, `countText(t) >= countWords(t)`. -/
theorem countText_ge_countWords (P : Platform) (t : JSString)
    (h : ∀ tok ∈ tokens t, ∃ c ∈ tok, c ∈ spanishLetters) :
    countWords t ≤ countText P t := by
  refine le_trans (countWords_le_tokens t) ?_
  rw [countText_eq_sum]
  apply length_filter_le_sum
  intro tok htok
  obtain ⟨c, hc, hl⟩ := h tok htok
  have hne : clean tok ≠ [] := by
    intro h0
    have : c ∈ clean tok := by
      unfold clean
      exact List.mem_filter.2 ⟨hc, (isSpanishLetter_iff_mem c).2 hl⟩
    rw [h0] at this
    simp at this
  unfold wordValue
  rw [if_pos hne]
  exact countWord_pos P _ hne

/-- Claim C20 at a text of two tokens with punctuation. -/
theorem countText_ge_countWords_witness :
    tokens (utf16 " ¡Hola, mundo! ") = [utf16 "¡Hola,", utf16 "mundo!"] ∧
      countWords (utf16 " ¡Hola, mundo! ") ≤
        countText Platform.latin1 (utf16 " ¡Hola, mundo! ") :=
  ⟨by decide, countText_ge_countWords Platform.latin1 (utf16 " ¡Hola, mundo! ") (by decide)⟩

/-- Claim C19 at a text and the empty string. -/
theorem countText_additive_witness :
    countText Platform.latin1 (utf16 "la, isla" ++ utf16 " " ++ utf16 "") =
      countText Platform.latin1 (utf16 "la, isla") + countText Platform.latin1 (utf16 "") :=
  countText_additive Platform.latin1 (utf16 "la, isla") (utf16 "")

/-! ## `countText` on decomposed accents and on punctuation -/

set_option maxRecDepth 100000 in
theorem filter_decomposeUnit (c : Nat) (h : isSpanishLetter c = true) :
    (decomposeUnit c).filter (fun x => isWhiteSpace x || isSpanishLetter x) = [baseLetter c] ∧
      isSpanishLetter (baseLetter c) = true ∧
      (decomposeUnit c).filter isSpanishLetter = [baseLetter c] := by
  have key : ∀ c, c < 0x100 → isSpanishLetter c = true →
      (decomposeUnit c).filter (fun x => isWhiteSpace x || isSpanishLetter x) =
          [baseLetter c] ∧
        isSpanishLetter (baseLetter c) = true ∧
        (decomposeUnit c).filter isSpanishLetter = [baseLetter c] := by decide
  exact key c (isSpanishLetter_lt c h) h

theorem filter_decompose (w : JSString) (hw : ∀ c ∈ w, isSpanishLetter c = true) :
    (decompose w).filter (fun x => isWhiteSpace x || isSpanishLetter x) = w.map baseLetter ∧
      clean (decompose w) = w.map baseLetter := by
  induction w with
  | nil => exact ⟨rfl, rfl⟩
  | cons c rest ih =>
    have hc := filter_decomposeUnit c (hw c (List.mem_cons_self _ _))
    have ih2 := ih (fun x hx => hw x (List.mem_cons_of_mem _ hx))
    unfold clean at ih2 ⊢
    simp only [decompose, List.filter_append, hc.1, hc.2.2, ih2.1, ih2.2, List.map_cons,
      List.singleton_append, and_self]

theorem filter_map_baseLetter (w : JSString) (hw : ∀ c ∈ w, isSpanishLetter c = true) :
    (w.map baseLetter).filter (fun x => isWhiteSpace x || isSpanishLetter x) =
      w.map baseLetter := by
  apply List.filter_eq_self.2
  intro x hx
  obtain ⟨c, hc, rfl⟩ := List.mem_map.1 hx
  simp [(filter_decomposeUnit c (hw c hc)).2.1]

/-- The text counted by `countText` is the text without the units that are
neither whitespace nor letters. -/
theorem countText_filter (P : Platform) (t : JSString) :
    countText P (t.filter (fun x => isWhiteSpace x || isSpanishLetter x)) = countText P t := by
  rw [countText_eq_textPass, countText_eq_textPass, textPass_filter]

/-- Claim C21: `countText` does not recompose decomposed accents: its
cleaning step deletes the combining accent (U+0301 and U+0308 are not in the
letter class) before `countWord` normalises, so the vowel is scanned
unaccented, and the count of a decomposed text can differ from the count of
the composed text: `countText("poesía")` is 4 with a precomposed í and 3
with í written as i followed by U+0301 (where `countWord` alone gives 4). -/
theorem countText_drops_combining_accents (P : Platform) (hP : P.Latin1) :
    isSpanishLetter 0x301 = false ∧ isSpanishLetter 0x308 = false ∧
      (∀ w : JSString, (∀ c ∈ w, isSpanishLetter c = true) →
        clean (decompose w) = w.map baseLetter ∧
          countText P (decompose w) = countText P (w.map baseLetter)) ∧
      decompose (utf16 "poesía") = [0x70, 0x6F, 0x65, 0x73, 0x69, 0x301, 0x61] ∧
      clean (decompose (utf16 "poesía")) = utf16 "poesia" ∧
      countText P (utf16 "poesía") = 4 ∧
      countText P (decompose (utf16 "poesía")) = 3 ∧
      (∃ t : JSString, countText P (decompose t) ≠ countText P t) ∧
      (P.Recomposes → countWord P (decompose (utf16 "poesía")) = 4) := by
  have h4 : countText P (utf16 "poesía") = 4 := by
    rw [countText_eq_score P hP]
    decide
  have h3 : countText P (decompose (utf16 "poesía")) = 3 := by
    rw [countText_eq_score P hP]
    decide
  refine ⟨by decide, by decide, ?_, by decide, by decide, h4, h3, ?_, ?_⟩
  · intro w hw
    refine ⟨(filter_decompose w hw).2, ?_⟩
    rw [← countText_filter P (decompose w), (filter_decompose w hw).1,
      ← countText_filter P (w.map baseLetter), filter_map_baseLetter w hw]
  · refine ⟨utf16 "poesía", ?_⟩
    rw [h4, h3]
    decide
  · intro hR
    rw [countWord_decompose P hR _ (by decide)]
    decide

/-- Claim C21 at a platform that conforms on Latin-1 and recomposes. -/
theorem countText_drops_combining_accents_witness :
    countText Platform.spanish (utf16 "poesía") = 4 ∧
      countText Platform.spanish (decompose (utf16 "poesía")) = 3 ∧
      countWord Platform.spanish (decompose (utf16 "poesía")) = 4 :=
  have h := countText_drops_combining_accents Platform.spanish Platform.spanish_latin1
  ⟨h.2.2.2.2.2.1, h.2.2.2.2.2.2.1, h.2.2.2.2.2.2.2.2 Platform.spanish_recomposes⟩

/-- Claim C22: punctuation does not separate words in `countText`, only
whitespace does: a character that is neither whitespace nor a letter can be
deleted from a text without changing the count, so the letters on both sides
of it are scanned as one word, whereas a space makes the count additive;
`countText("la,isla")` is 2 and `countText("la, isla")` is 3. -/
theorem countText_punctuation_joins (P : Platform) (a b : JSString) (p : Nat)
    (hws : isWhiteSpace p = false) (hl : isSpanishLetter p = false) :
    countText P (a ++ p :: b) = countText P (a ++ b) ∧
      countText P (a ++ utf16 " " ++ b) = countText P a + countText P b ∧
      (P.Latin1 →
        countText P (utf16 "la,isla") = 2 ∧ countText P (utf16 "la, isla") = 3 ∧
        countText P (utf16 "laisla") = 2 ∧ countText P (utf16 "la isla") = 3) := by
  refine ⟨?_, ?_, ?_⟩
  · rw [← countText_filter P (a ++ p :: b), ← countText_filter P (a ++ b)]
    simp [List.filter_append, List.filter_cons, hws, hl]
  · have e : a ++ utf16 " " ++ b = a ++ 0x20 :: b := by
      have : utf16 " " = [0x20] := by decide
      rw [this]
      simp
    rw [e, countText_eq_textPass, countText_eq_textPass, countText_eq_textPass,
      textPass_append_sep _ 0x20 (by decide)]
  · intro hP
    rw [countText_eq_score P hP, countText_eq_score P hP, countText_eq_score P hP,
      countText_eq_score P hP]
    decide

/-- Claim C22 at the comma of "la,isla". -/
theorem countText_punctuation_joins_witness :
    countText Platform.latin1 (utf16 "la" ++ 0x2C :: utf16 "isla") =
        countText Platform.latin1 (utf16 "la" ++ utf16 "isla") ∧
      countText Platform.latin1 (utf16 "la,isla") = 2 ∧
      countText Platform.latin1 (utf16 "la, isla") = 3 :=
  have h := countText_punctuation_joins Platform.latin1 (utf16 "la") (utf16 "isla") 0x2C
    (by decide) (by decide)
  ⟨h.1, (h.2.2 Platform.latin1_conforms).1, (h.2.2 Platform.latin1_conforms).2.1⟩

/-! ## Printing integers -/

theorem digitChar_value (k : Nat) (h : k < 10) :
    (Nat.digitChar k).toNat - 48 = k ∧ Nat.digitChar k ≠ '-' := by
  have key : ∀ k, k < 10 → (Nat.digitChar k).toNat - 48 = k ∧ Nat.digitChar k ≠ '-' := by
    decide
  exact key k h

theorem readDigits_toDigitsCore (fuel : Nat) :
    ∀ (n : Nat) (ds : List Char), n < fuel →
      readDigits 0 (Nat.toDigitsCore 10 fuel n ds) = readDigits n ds := by
  induction fuel with
  | zero => intro n ds h; omega
  | succ fuel ih =>
    intro n ds h
    have hd := (digitChar_value (n % 10) (Nat.mod_lt _ (by decide))).1
    simp only [Nat.toDigitsCore]
    by_cases h0 : n / 10 = 0
    · rw [if_pos h0]
      simp only [readDigits, List.foldl_cons, hd]
      congr 1
      omega
    · rw [if_neg h0, ih (n / 10) _ (by omega)]
      simp only [readDigits, List.foldl_cons, hd]
      congr 1
      omega

theorem toDigitsCore_no_minus (fuel : Nat) :
    ∀ (n : Nat) (ds : List Char), '-' ∉ ds → '-' ∉ Nat.toDigitsCore 10 fuel n ds := by
  induction fuel with
  | zero => intro n ds h; simpa [Nat.toDigitsCore] using h
  | succ fuel ih =>
    intro n ds h
    have hd := (digitChar_value (n % 10) (Nat.mod_lt _ (by decide))).2
    have hcons : '-' ∉ Nat.digitChar (n % 10) :: ds := by
      intro hm
      rcases List.mem_cons.1 hm with h1 | h1
      · exact hd h1.symm
      · exact h h1
    simp only [Nat.toDigitsCore]
    by_cases h0 : n / 10 = 0
    · rw [if_pos h0]; exact hcons
    · rw [if_neg h0]; exact ih _ _ hcons

theorem natRepr_data (n : Nat) : (toString n).data = Nat.toDigits 10 n := rfl

theorem natToString_injective (m n : Nat) (h : toString m = toString n) : m = n := by
  have h1 : Nat.toDigits 10 m = Nat.toDigits 10 n := by
    rw [← natRepr_data, ← natRepr_data, h]
  have e1 := readDigits_toDigitsCore (m + 1) m [] (by omega)
  have e2 := readDigits_toDigitsCore (n + 1) n [] (by omega)
  unfold Nat.toDigits at h1
  rw [h1, e2] at e1
  simpa [readDigits] using e1.symm

theorem natToString_no_minus (n : Nat) : '-' ∉ (toString n).data := by
  rw [natRepr_data]
  exact toDigitsCore_no_minus _ _ _ (by simp)

theorem intToString_ofNat (m : Nat) : toString (Int.ofNat m) = toString m := rfl

theorem intToString_negSucc (m : Nat) :
    toString (Int.negSucc m) = "-" ++ toString (m + 1) := rfl

theorem intToString_injective (m n : Int) (h : toString m = toString n) : m = n := by
  cases m with
  | ofNat a =>
    cases n with
    | ofNat b =>
      rw [intToString_ofNat, intToString_ofNat] at h
      rw [natToString_injective a b h]
    | negSucc b =>
      rw [intToString_ofNat, intToString_negSucc] at h
      have := natToString_no_minus a
      rw [h, String.data_append] at this
      exact absurd (List.mem_append_left _ (by decide)) this
  | negSucc a =>
    cases n with
    | ofNat b =>
      rw [intToString_ofNat, intToString_negSucc] at h
      have := natToString_no_minus b
      rw [← h, String.data_append] at this
      exact absurd (List.mem_append_left _ (by decide)) this
    | negSucc b =>
      rw [intToString_negSucc, intToString_negSucc] at h
      have h2 : (toString (a + 1)).data = (toString (b + 1)).data := by
        have := congrArg String.data h
        rw [String.data_append, String.data_append] at this
        exact List.append_cancel_left this
      have h3 : toString (a + 1) = toString (b + 1) := String.ext h2
      have := natToString_injective _ _ h3
      have hab : a = b := by omega
      rw [hab]


/-! ## Injectivity of `verseName` -/

theorem verseName_no_space (n : Int) (h1 : 1 ≤ n) (h2 : n ≤ 14) :
    ' ' ∉ (verseName n).data := by
  interval_cases n <;> decide

theorem verseName_of_outside (n : Int) (h : ¬ (1 ≤ n ∧ n ≤ 14))
    (hs : n.natAbs ≤ 2 ^ 53) : verseName n = toString n ++ " sílabas" := by
  rw [verseName_of_safe n hs, names_lookup_none n (by omega)]
  exact fallbackName_of_safe n hs

theorem verseName_injOn_table :
    ∀ m ∈ ([1, 2, 3, 4, 5, 6, 7, 8, 9, 10, 11, 12, 13, 14] : List Int),
      ∀ n ∈ ([1, 2, 3, 4, 5, 6, 7, 8, 9, 10, 11, 12, 13, 14] : List Int),
        verseName m = verseName n → m = n := by
  decide

theorem mem_table_keys (n : Int) (h1 : 1 ≤ n) (h2 : n ≤ 14) :
    n ∈ ([1, 2, 3, 4, 5, 6, 7, 8, 9, 10, 11, 12, 13, 14] : List Int) := by
  interval_cases n <;> decide

theorem decimalName_injective (m n : Int)
    (h : toString m ++ " sílabas" = toString n ++ " sílabas") : m = n := by
  have h2 : (toString m).data = (toString n).data := by
    have := congrArg String.data h
    rw [String.data_append, String.data_append] at this
    exact List.append_cancel_right this
  exact intToString_injective m n (String.ext h2)

theorem decimalName_has_space (n : Int) : ' ' ∈ (toString n ++ " sílabas").data := by
  rw [String.data_append]
  exact List.mem_append_right _ (by decide)

/-- Claim C23, as stated, fails: the integers 2^53 + 1 and 2^53 are
different and reach the code as the same double, so `verseName` returns the
same string for both. -/
theorem verseName_not_injective :
    verseName (2 ^ 53 + 1) = verseName (2 ^ 53) ∧ ((2 : Int) ^ 53 + 1 ≠ 2 ^ 53) ∧
      verseName (2 ^ 53 + 1) = "9007199254740992 sílabas" := by
  decide

/-- Claim C23, amended: `verseName` is injective on the integers `n` with
`|n| <= 2^53`: for such `m` and `n`, `verseName(m)` equal to `verseName(n)`
implies `m = n`; the fourteen table names are pairwise distinct and none has
the form "<n> sílabas". -/
theorem verseName_injective (m n : Int)
    (hm1 : -(2 : Int) ^ 53 ≤ m) (hm2 : m ≤ (2 : Int) ^ 53)
    (hn1 : -(2 : Int) ^ 53 ≤ n) (hn2 : n ≤ (2 : Int) ^ 53)
    (h : verseName m = verseName n) :
    m = n ∧ (names.map Prod.snd).Nodup ∧
      (∀ k : Int, 1 ≤ k → k ≤ 14 → ∀ j : Int, verseName k ≠ fallbackName j) := by
  have hsm : m.natAbs ≤ 2 ^ 53 := by omega
  have hsn : n.natAbs ≤ 2 ^ 53 := by omega
  refine ⟨?_, by decide, ?_⟩
  · by_cases hm : 1 ≤ m ∧ m ≤ 14
    · by_cases hn : 1 ≤ n ∧ n ≤ 14
      · exact verseName_injOn_table m (mem_table_keys m hm.1 hm.2) n
          (mem_table_keys n hn.1 hn.2) h
      · exfalso
        apply verseName_no_space m hm.1 hm.2
        rw [h, verseName_of_outside n hn hsn]
        exact decimalName_has_space n
    · by_cases hn : 1 ≤ n ∧ n ≤ 14
      · exfalso
        apply verseName_no_space n hn.1 hn.2
        rw [← h, verseName_of_outside m hm hsm]
        exact decimalName_has_space m
      · rw [verseName_of_outside m hm hsm, verseName_of_outside n hn hsn] at h
        exact decimalName_injective m n h
  · intro k h1 h2 j hj
    apply verseName_no_space k h1 h2
    rw [hj]
    exact fallbackName_has_space j

/-- The amended C23 at 20, and its use to tell 7 from 8. -/
theorem verseName_injective_witness :
    verseName 20 = verseName (19 + 1) ∧ (20 : Int) = 19 + 1 ∧ verseName 7 ≠ verseName 8 :=
  ⟨by decide,
    (verseName_injective 20 (19 + 1) (by decide) (by decide) (by decide) (by decide)
      (by decide)).1,
    fun h => absurd
      (verseName_injective 7 8 (by decide) (by decide) (by decide) (by decide) h).1
      (by decide)⟩

end Infiniversal
